import Mathlib

/-!
# ByRegex: a lazily buffered bidirectional cursor over an input stream, and
regex extraction into typed bindings

Shallow embedding of `src/byregex.hpp` (namespace `lukaj`):

* `IStream`   : the observable state of a `std::basic_istream<char>` as far as the
  header uses it (`get`, `putback`, `eof`);
* `Heap`      : the objects that cursors point to (the shared `std::vector<charT>`
  behind the `shared_ptr`, and the stream behind the raw pointer);
* `Cursor`    : `basic_byregex::istream_bidirectional_iterator` with its three
  fields `buf`, `pos`, `is`, and every member function of the class;
* `Engine`    : a client of the cursor interface (what `std::regex_search` is to the
  header: it only ever touches the stream through cursor operations);
* `Argpack.extract`, `extract` : `argpack::extract` and `basic_byregex::extract`.

Undefined behaviour of the C++ code (null dereference, out-of-range indexing,
walking past the end of the match results) is `none`.
-/

namespace ByRegex

/-! ## Machine sizes -/

/-- Width in bits of `std::vector<charT>::size_type` (`std::size_t`). -/
def sizeBits : Nat := 64

/-- Number of values of the unsigned position type: arithmetic on `pos` is modulo this. -/
def sizeMod : Nat := 2 ^ sizeBits

/-- The value of `charT(traits::eof())` for `charT = char`: `(char)-1`, code unit 255.
`buf->push_back(is->get())` stores it when `get()` reports end of file. -/
def eofChar : Char := Char.ofNat 255

/-! ## The input stream

`std::basic_istream` is the standard library's; the three members the header calls are
modelled after their specification in the C++11 standard. -/

/-- Observable state of a `std::basic_istream<char>`: the character sequence behind it,
how many characters of it have been consumed, and the three `iostate` bits. -/
structure IStream where
  data : List Char
  gpos : Nat
  eofbit : Bool
  failbit : Bool
  badbit : Bool
deriving DecidableEq

namespace IStream

/-- A freshly opened stream over the given text. -/
def ofList (cs : List Char) : IStream :=
  { data := cs, gpos := 0, eofbit := false, failbit := false, badbit := false }

/-- Member `good()`: no state bit is set. -/
def good (s : IStream) : Bool := !s.eofbit && !s.failbit && !s.badbit

/-- Member `eof()`: the end-of-file bit. -/
def eof (s : IStream) : Bool := s.eofbit

/-- Unread part of the character sequence. -/
def rest (s : IStream) : List Char := s.data.drop s.gpos

/-- Member `get()` (unformatted input of one character), with the result already
converted to `charT` as `push_back` does.  The sentry fails on a stream that is not
`good()` and sets `failbit`; at the end of the sequence `eofbit` and `failbit` are set;
both cases yield `traits::eof()`. -/
def get (s : IStream) : Char × IStream :=
  if s.good then
    match s.data.get? s.gpos with
    | some c => (c, { s with gpos := s.gpos + 1 })
    | none => (eofChar, { s with eofbit := true, failbit := true })
  else (eofChar, { s with failbit := true })

/-- Member `putback(c)`: clears `eofbit` first, then the sentry fails on a stream that is
not `good()` (setting `failbit`); otherwise `sputbackc(c)` steps back one character when a
putback position exists and holds `c`, and `badbit` is set when it does not. -/
def putback (s : IStream) (c : Char) : IStream :=
  let s1 : IStream := { s with eofbit := false }
  if s1.good then
    if 0 < s1.gpos ∧ s1.data.get? (s1.gpos - 1) = some c then
      { s1 with gpos := s1.gpos - 1 }
    else { s1 with badbit := true }
  else { s1 with failbit := true }

/-- Reading the stream to its end with `get()`: the characters a later reader obtains.
`fuel` bounds the number of reads. -/
def drain : Nat → IStream → List Char
  | 0, _ => []
  | fuel + 1, s =>
    if s.good then
      match s.data.get? s.gpos with
      | some c => c :: drain fuel (s.get).2
      | none => []
    else []

/-- Everything a later reader obtains from the stream. -/
def readAll (s : IStream) : List Char := drain (s.data.length + 1) s

end IStream

/-! ## The heap of shared objects -/

/-- The objects cursors refer to: vectors (targets of the `shared_ptr`) and streams
(targets of the raw pointer), each addressed by a handle; `nextBuf` is the next handle
`new` returns. -/
structure Heap where
  bufs : Nat → List Char
  streams : Nat → IStream
  nextBuf : Nat

namespace Heap

/-- Replace the vector behind handle `b`. -/
def setBuf (h : Heap) (b : Nat) (v : List Char) : Heap :=
  { h with bufs := Function.update h.bufs b v }

/-- Replace the stream behind handle `s`. -/
def setStream (h : Heap) (s : Nat) (st : IStream) : Heap :=
  { h with streams := Function.update h.streams s st }

/-- The statement `buf->push_back(is->get())` for vector `b` and stream `s`. -/
def pull (h : Heap) (b s : Nat) : Heap :=
  let r := (h.streams s).get
  (h.setBuf b (h.bufs b ++ [r.1])).setStream s r.2

/-- A heap holding one stream (handle 0) and no vector yet. -/
def single (st : IStream) : Heap :=
  { bufs := fun _ => [], streams := fun _ => st, nextBuf := 0 }

end Heap

/-! ## The cursor `istream_bidirectional_iterator` -/

/-- The three data members: `buf` (shared pointer, `none` is `nullptr`), `pos`
(unsigned index), `is` (stream pointer, `none` is `nullptr`). -/
structure Cursor where
  buf : Option Nat
  pos : Nat
  is : Option Nat
deriving DecidableEq

namespace Cursor

/-- Default constructor: the end sentinel. -/
def sentinel : Cursor := { buf := none, pos := 0, is := none }

/-- Constructor from a stream: allocates a fresh empty vector. -/
def ofStream (s : Nat) (h : Heap) : Cursor × Heap :=
  ({ buf := some h.nextBuf, pos := 0, is := some s },
   { h with bufs := Function.update h.bufs h.nextBuf [], nextBuf := h.nextBuf + 1 })

/-- Defaulted copy constructor. -/
def copy (c : Cursor) : Cursor := { buf := c.buf, pos := c.pos, is := c.is }

/-- Copy assignment `operator=`: the left operand takes all three fields of `other`. -/
def assign (_self other : Cursor) : Cursor :=
  { buf := other.buf, pos := other.pos, is := other.is }

/-- Friend `operator==`. -/
def eq (h : Heap) (lhs rhs : Cursor) : Bool :=
  match lhs.is, rhs.is with
  | none, some r => (h.streams r).eof
  | some l, none => (h.streams l).eof
  | _, _ => decide (lhs.is = rhs.is) && decide (lhs.pos = rhs.pos) && decide (lhs.buf = rhs.buf)

/-- Friend `operator!=`. -/
def ne (h : Heap) (lhs rhs : Cursor) : Bool := !(eq h lhs rhs)

/-- The guarded pull at the head of `operator*`:
`if (pos >= buf->size()) buf->push_back(is->get());`. -/
def fill (c : Cursor) (h : Heap) : Option Heap :=
  match c.buf with
  | none => none
  | some b =>
    if (h.bufs b).length ≤ c.pos then
      match c.is with
      | none => none
      | some s => some (h.pull b s)
    else some h

/-- Member `operator*` (both overloads have the same body): the guarded pull, then
`(*buf)[pos]`.  Indexing outside the vector is undefined. -/
def deref (c : Cursor) (h : Heap) : Option (Char × Heap) :=
  match c.buf, c.fill h with
  | some b, some h1 =>
    match (h1.bufs b).get? c.pos with
    | some x => some (x, h1)
    | none => none
  | _, _ => none

/-- Private `advancePos`: `if (buf->size() <= ++pos) buf->push_back(is->get());`. -/
def advancePos (c : Cursor) (h : Heap) : Option (Cursor × Heap) :=
  match c.buf with
  | none => none
  | some b =>
    let c1 : Cursor := { c with pos := (c.pos + 1) % sizeMod }
    if (h.bufs b).length ≤ c1.pos then
      match c.is with
      | none => none
      | some s => some (c1, h.pull b s)
    else some (c1, h)

/-- Pre-increment `operator++`. -/
def inc (c : Cursor) (h : Heap) : Option (Cursor × Heap) := c.advancePos h

/-- Post-increment `operator++(int)`: returns the old cursor next to the advanced one. -/
def postInc (c : Cursor) (h : Heap) : Option (Cursor × Cursor × Heap) :=
  let tmp := c.copy
  match c.advancePos h with
  | some (c1, h1) => some (tmp, c1, h1)
  | none => none

/-- Pre-decrement `operator--`: `pos--` on the unsigned index. -/
def dec (c : Cursor) : Cursor := { c with pos := (c.pos + sizeMod - 1) % sizeMod }

/-- Post-decrement `operator--(int)`: returns the old cursor next to the retreated one. -/
def postDec (c : Cursor) : Cursor × Cursor := (c.copy, c.dec)

/-- Member `endBuf`: `pos = buf->size() - 1` in the unsigned size type. -/
def endBuf (c : Cursor) (h : Heap) : Option Cursor :=
  match c.buf with
  | none => none
  | some b => some { c with pos := ((h.bufs b).length + sizeMod - 1) % sizeMod }

end Cursor

/-! ## Sequences of cursor operations -/

/-- The operations a holder of a cursor can apply to it. -/
inductive Op where
  | deref
  | advance
  | retreat
  | endBuf
  | copy
  | assign (other : Cursor)
deriving DecidableEq

/-- One operation on a cursor: the cursor and heap afterwards (`none`: undefined). -/
def Op.run : Op → Cursor → Heap → Option (Cursor × Heap)
  | .deref, c, h =>
    match c.deref h with
    | some (_, h1) => some (c, h1)
    | none => none
  | .advance, c, h => c.inc h
  | .retreat, c, h => some (c.dec, h)
  | .endBuf, c, h =>
    match c.endBuf h with
    | some c1 => some (c1, h)
    | none => none
  | .copy, c, h => some (c.copy, h)
  | .assign other, c, h => some (c.assign other, h)

/-- A sequence of operations applied to one cursor, left to right. -/
def runOps : List Op → Cursor → Heap → Option (Cursor × Heap)
  | [], c, h => some (c, h)
  | op :: ops, c, h =>
    match op.run c h with
    | some (c1, h1) => runOps ops c1 h1
    | none => none

/-- No `retreat` in the sequence is applied to a cursor at position 0. -/
def noRetreatAtZero : List Op → Cursor → Heap → Bool
  | [], _, _ => true
  | op :: ops, c, h =>
    (!(decide (op = Op.retreat) && decide (c.pos = 0))) &&
    match op.run c h with
    | some (c1, h1) => noRetreatAtZero ops c1 h1
    | none => true

/-- The sequence uses only dereference, advance and retreat. -/
def basicOps (ops : List Op) : Bool :=
  ops.all fun op => decide (op = Op.deref) || decide (op = Op.advance) || decide (op = Op.retreat)

/-! ## Clients of the cursor: the pattern engine -/

/-- Element of `std::match_results`: `std::sub_match` with its iterator pair. -/
structure SubMatch where
  first : Cursor
  second : Cursor
  matched : Bool
deriving DecidableEq

/-- A client of the cursor interface, as `std::regex_search` is: every stream-backed
cursor it holds is a copy of the cursor it was given, so it differs from it in `pos`
only, and each step names the position of the copy it applies an operator to.
`done` is the return with the flag and the sequence enumerated from `results.begin()`;
`hang` is a client that does not return. -/
inductive Engine where
  | done (hasMatched : Bool) (results : List SubMatch)
  | hang
  | atEnd (p : Nat) (k : Bool → Engine)
  | deref (p : Nat) (k : Char → Engine)
  | inc (p : Nat) (k : Engine)
  | dec (p : Nat) (k : Engine)

/-- The copy of `first` standing at position `p`. -/
def Cursor.at (first : Cursor) (p : Nat) : Cursor := { first with pos := p }

/-- Running a client on the range `[first, last)`: each step is the cursor member it
names, applied to the heap. -/
def Engine.run : Engine → Cursor → Cursor → Heap → Option (Bool × List SubMatch × Heap)
  | .done m r, _, _, h => some (m, r, h)
  | .hang, _, _, _ => none
  | .atEnd p k, first, last, h => (k (Cursor.eq h (first.at p) last)).run first last h
  | .deref p k, first, last, h =>
    match (first.at p).deref h with
    | some (x, h1) => (k x).run first last h1
    | none => none
  | .inc p k, first, last, h =>
    match (first.at p).inc h with
    | some (_, h1) => k.run first last h1
    | none => none
  | .dec _ k, first, last, h => k.run first last h

/-! ## A backtracking pattern engine over the cursor

The header calls `std::regex_search`; the engine belongs to the standard library, not to
the header.  The properties of `extract` that hold for every search are stated over an
arbitrary `Engine`.  For concrete calls the executor below stands for the library: it
applies the cursor operators in the order a depth-first backtracking implementation
(libstdc++) does, and returns the sub-matches `[results.begin(), results.end())`. -/

/-- Patterns: the fragment of ECMAScript regular expressions used below.  `chr p` is one
character accepted by `p` (a literal, a class or an escape such as `\d`), `star` is the
greedy `*`, `group i` is the `i`-th capturing parenthesis. -/
inductive Regex where
  | empty
  | chr (p : Char → Bool)
  | seq (a b : Regex)
  | alt (a b : Regex)
  | star (a : Regex)
  | group (i : Nat) (a : Regex)

namespace Regex

/-- Number of capturing groups (`mark_count()`): the largest group index. -/
def markCount : Regex → Nat
  | empty => 0
  | chr _ => 0
  | seq a b => max a.markCount b.markCount
  | alt a b => max a.markCount b.markCount
  | star a => a.markCount
  | group i a => max i a.markCount

/-- Greedy repetition of `body`: one more round first, and the continuation when that
leads to no match; a round that consumed nothing is abandoned. -/
def starLoop (body : Nat → List SubMatch → (Nat → List SubMatch → Engine → Engine) → Engine → Engine) :
    Nat → Nat → List SubMatch → (Nat → List SubMatch → Engine → Engine) → Engine → Engine
  | 0, _, _, _, _ => Engine.hang
  | fuel + 1, pos, caps, succ, fail =>
    body pos caps
      (fun p c f => if p = pos then f else starLoop body fuel p c succ f)
      (succ pos caps fail)

/-- Depth-first executor.  A character state first compares the current cursor with the
end, then dereferences it, and on acceptance advances, runs the rest, and retreats when
the rest fails; an alternative tries its left branch first. -/
def exec (first : Cursor) (fuel : Nat) :
    Regex → Nat → List SubMatch → (Nat → List SubMatch → Engine → Engine) → Engine → Engine
  | empty, pos, caps, succ, fail => succ pos caps fail
  | chr p, pos, caps, succ, fail =>
    Engine.atEnd pos fun e =>
      if e then fail
      else Engine.deref pos fun x =>
        if p x then
          Engine.inc pos (succ ((pos + 1) % sizeMod) caps (Engine.dec ((pos + 1) % sizeMod) fail))
        else fail
  | seq a b, pos, caps, succ, fail =>
    exec first fuel a pos caps (fun p c f => exec first fuel b p c succ f) fail
  | alt a b, pos, caps, succ, fail =>
    exec first fuel a pos caps succ (exec first fuel b pos caps succ fail)
  | star a, pos, caps, succ, fail =>
    starLoop (exec first fuel a) fuel pos caps succ fail
  | group i a, pos, caps, succ, fail =>
    exec first fuel a pos caps
      (fun p c f => succ p (c.set i { first := first.at pos, second := first.at p, matched := true }) f)
      fail

/-- The call `std::regex_search(first, last, results, regex, match_continuous)`: one
attempt anchored at `first`.  On success `results` holds the whole match and the
`markCount` groups, unmatched groups with both cursors equal to `last`; on failure it is
empty. -/
def search (r : Regex) (fuel : Nat) (first last : Cursor) : Engine :=
  exec first fuel r first.pos
    (List.replicate (r.markCount + 1) { first := last, second := last, matched := false })
    (fun p c _ => Engine.done true (c.set 0 { first := first, second := first.at p, matched := true }))
    (Engine.done false [])

end Regex

/-! ## Typed bindings and their textual parse -/

/-- A caller-owned output variable: the `U &arg` of an `argpack`, for `U = int` and
`U = std::string`. -/
inductive Binding where
  | int (v : Int)
  | str (v : List Char)
deriving DecidableEq

/-- Whitespace in the classic locale: space and the controls 9 to 13. -/
def isSpace (c : Char) : Bool := c.toNat = 32 || (9 ≤ c.toNat && c.toNat ≤ 13)

/-- Value of a run of decimal digits. -/
def digitsValue (ds : List Char) : Nat :=
  ds.foldl (fun acc d => 10 * acc + (d.toNat - 48)) 0

/-- Range of `int` (32 bits): a parsed value outside it is stored as the nearest bound. -/
def clampInt (v : Int) : Int :=
  if v < -(2 ^ 31 : Int) then -(2 ^ 31 : Int)
  else if (2 ^ 31 : Int) - 1 < v then (2 ^ 31 : Int) - 1
  else v

/-- The formatted extraction `is >> arg` on `std::istringstream is(text)`.  Leading
whitespace is skipped; when nothing is left the extraction fails and the variable keeps
its value.  A text variable takes the characters up to the next whitespace.  An integer
variable takes an optional sign and the decimal digits that follow, and zero when there
is no digit. -/
def Binding.read : Binding → List Char → Binding
  | .int v, text =>
    match text.dropWhile isSpace with
    | [] => .int v
    | c :: cs =>
      let neg := decide (c = Char.ofNat 45)
      let body := if c = Char.ofNat 45 ∨ c = Char.ofNat 43 then cs else c :: cs
      let ds := body.takeWhile Char.isDigit
      if ds.isEmpty then .int 0
      else .int (clampInt (if neg then -(digitsValue ds : Int) else (digitsValue ds : Int)))
  | .str v, text =>
    match text.dropWhile isSpace with
    | [] => .str v
    | c :: cs => .str ((c :: cs).takeWhile fun x => !isSpace x)

/-! ## The extractor `basic_byregex` -/

/-- The range constructor `std::basic_string<charT>(first, second)`:
`for (; first != second; ++first) push_back(*first)`.  `fuel` bounds the iterations. -/
def rangeString : Nat → Cursor → Cursor → Heap → Option (List Char × Heap)
  | fuel, first, second, h =>
    if Cursor.ne h first second then
      match fuel with
      | 0 => none
      | fuel + 1 =>
        match first.deref h with
        | none => none
        | some (x, h1) =>
          match first.inc h1 with
          | none => none
          | some (c1, h2) =>
            match rangeString fuel c1 second h2 with
            | none => none
            | some (xs, h3) => some (x :: xs, h3)
    else some ([], h)

/-- The recursive `argpack<U, UArgs...>`: one variable and the rest of the pack; the
specialisation `argpack<U>` ends it. -/
inductive Argpack where
  | last (arg : Binding)
  | cons (arg : Binding) (next_arg : Argpack)
deriving DecidableEq

namespace Argpack

/-- The bound variables in declaration order. -/
def toList : Argpack → List Binding
  | last a => [a]
  | cons a n => a :: n.toList

/-- Number of bound variables. -/
def size (p : Argpack) : Nat := p.toList.length

/-- Member `argpack::extract(matches)`, with `matches` the iterator standing at index `i`
of `results`: build the string from `matches->first` and `matches->second`, read the
variable from it, and hand `++matches` to the rest of the pack.  Dereferencing an
iterator that is not inside the sequence is undefined. -/
def extract : Argpack → List SubMatch → Nat → Heap → Option (Argpack × Heap)
  | last arg, results, i, h =>
    match results.get? i with
    | none => none
    | some m =>
      match rangeString sizeMod m.first m.second h with
      | none => none
      | some (text, h1) => some (last (arg.read text), h1)
  | cons arg next_arg, results, i, h =>
    match results.get? i with
    | none => none
    | some m =>
      match rangeString sizeMod m.first m.second h with
      | none => none
      | some (text, h1) =>
        match next_arg.extract results (i + 1) h1 with
        | none => none
        | some (rest, h2) => some (cons (arg.read text) rest, h2)

end Argpack

/-- Member `basic_byregex::extract(is)` for the extractor holding the compiled pattern
`regex` (as the search it performs) and the pack `args`; `s` is the handle of `is`.
Returns `hasMatched`, the variables and the heap afterwards. -/
def extract (regex : Cursor → Cursor → Engine) (args : Argpack) (s : Nat) (h : Heap) :
    Option (Bool × Argpack × Heap) :=
  let (it, h0) := Cursor.ofStream s h
  match (regex it Cursor.sentinel).run it Cursor.sentinel h0 with
  | none => none
  | some (hasMatched, results, h1) =>
    match args.extract results 1 h1 with
    | none => none
    | some (args1, h2) =>
      match it.endBuf h2 with
      | none => none
      | some it1 =>
        match it1.deref h2 with
        | none => none
        | some (c, h3) =>
          some (hasMatched, args1, h3.setStream s ((h3.streams s).putback c))

/-- What a caller observes of a call to `extract` on stream `s`: the returned flag, the
variables, and what a later reader obtains from the stream. -/
def observe (s : Nat) (r : Option (Bool × Argpack × Heap)) : Option (Bool × List Binding × List Char) :=
  r.map fun x => (x.1, x.2.1.toList, (x.2.2.streams s).readAll)

/-! ## Notions the properties are stated with -/

/-- The substring spanned by a group: the buffered characters from the position of
`first` up to the position of `second`. -/
def SubMatch.span (h : Heap) (m : SubMatch) : List Char :=
  match m.first.buf with
  | some b => ((h.bufs b).drop m.first.pos).take (m.second.pos - m.first.pos)
  | none => []

/-- A group of a match over the cursor `it`: both ends are copies of `it`, in order, at
positions the engine has buffered; or the group did not take part in the match and both
ends are the sentinel. -/
def SubMatch.Spans (it : Cursor) (h : Heap) (m : SubMatch) : Prop :=
  (m.first = Cursor.sentinel ∧ m.second = Cursor.sentinel) ∨
  (∃ b, it.buf = some b ∧ m.first = it.at m.first.pos ∧ m.second = it.at m.second.pos ∧
    m.first.pos ≤ m.second.pos ∧ m.second.pos < (h.bufs b).length)

/-! ## Patterns used as examples -/

/-- A literal character. -/
def lit (c : Char) : Regex := Regex.chr fun x => x == c

/-- One or more repetitions, greedy: `r+`. -/
def plus (r : Regex) : Regex := Regex.seq r (Regex.star r)

/-- The class `\d`. -/
def digit : Regex := Regex.chr Char.isDigit

/-- The class `\s`. -/
def space : Regex := Regex.chr isSpace

/-- The class `\w`. -/
def wordChar : Regex := Regex.chr fun x => x.isAlphanum || x == Char.ofNat 95

/-- The pattern `(\d+)(\s)(\w+)`: digits, whitespace and word, each captured. -/
def patThreeGroups : Regex :=
  Regex.seq (Regex.group 1 (plus digit)) (Regex.seq (Regex.group 2 space) (Regex.group 3 (plus wordChar)))

/-- The pattern `(\d+)\s(\w+)`: digits and word captured, the whitespace between them
matched without a group. -/
def patTwoGroups : Regex :=
  Regex.seq (Regex.group 1 (plus digit)) (Regex.seq space (Regex.group 2 (plus wordChar)))

/-- The pattern `(abc|a)`. -/
def patAbcOrA : Regex :=
  Regex.group 1 (Regex.alt (Regex.seq (lit 'a') (Regex.seq (lit 'b') (lit 'c'))) (lit 'a'))

/-- The pattern `(a)(b)(c)`. -/
def patABC : Regex :=
  Regex.seq (Regex.group 1 (lit 'a')) (Regex.seq (Regex.group 2 (lit 'b')) (Regex.group 3 (lit 'c')))

/-- A search that reads one character, fails, and leaves in `results` the three
unmatched entries (all cursors equal to `last`) that an implementation may keep behind
`results.end()`. -/
def failedSearchPadded (_first last : Cursor) : Engine :=
  Engine.atEnd 0 fun _ => Engine.deref 0 fun _ =>
    Engine.done false (List.replicate 3 { first := last, second := last, matched := false })

/-! ## The running example: the stream `42 foo\n` -/

/-- A heap whose only stream (handle 0) holds the seven characters `42 foo\n`. -/
def fooHeap : Heap :=
  Heap.single (IStream.ofList ['4', '2', ' ', 'f', 'o', 'o', Char.ofNat 10])

/-- An integer variable and a text variable, in this order. -/
def fooArgs : Argpack := Argpack.cons (Binding.int 0) (Argpack.last (Binding.str []))

/-- The cursor `extract` builds over stream 0 of `fooHeap`. -/
def fooCursor : Cursor := (Cursor.ofStream 0 fooHeap).1

/-- The heap after the search for `(\d+)\s(\w+)`: all seven characters pulled. -/
def fooHeapAfter : Heap :=
  (((((((Cursor.ofStream 0 fooHeap).2.pull 0 0).pull 0 0).pull 0 0).pull 0 0).pull 0 0).pull 0 0).pull 0 0

/-- The match results of `(\d+)\s(\w+)` on `42 foo\n`: the whole match `42 foo`, then
`42` and `foo`. -/
def fooResults : List SubMatch :=
  [{ first := fooCursor, second := fooCursor.at 6, matched := true },
   { first := fooCursor.at 0, second := fooCursor.at 2, matched := true },
   { first := fooCursor.at 3, second := fooCursor.at 6, matched := true }]

/-! ## Small states used as examples -/

/-- A heap whose only stream (handle 0) holds `abc`, nothing read yet. -/
def abcHeap : Heap := Heap.single (IStream.ofList ['a', 'b', 'c'])

/-- A heap in which vector 0 already holds `a`, pulled from stream 0 over `ab`. -/
def oneCharHeap : Heap :=
  { bufs := fun _ => ['a'],
    streams := fun _ => { data := ['a', 'b'], gpos := 1, eofbit := false, failbit := false, badbit := false },
    nextBuf := 1 }

/-- A heap whose stream 0 has been read to its end: `eofbit` and `failbit` are set. -/
def exhaustedHeap : Heap :=
  { bufs := fun _ => ['a', eofChar],
    streams := fun _ => { data := ['a'], gpos := 1, eofbit := true, failbit := true, badbit := false },
    nextBuf := 1 }

/-- A cursor over vector 0 and stream 0 standing at position `p`. -/
def cursorAt (p : Nat) : Cursor := { buf := some 0, pos := p, is := some 0 }

/-- Three text variables. -/
def threeTexts : Argpack :=
  Argpack.cons (Binding.str []) (Argpack.cons (Binding.str []) (Argpack.last (Binding.str [])))

/-! ## Further notions and examples -/

/-- Every cursor assigned in the sequence is a copy of `c` up to its position: it shares
the vector and the stream of `c`, so that only cursors over this vector read the stream. -/
def sharing (c : Cursor) (ops : List Op) : Bool :=
  ops.all fun op =>
    match op with
    | Op.assign other => decide (other.buf = c.buf) && decide (other.is = c.is)
    | _ => true

/-- The search of `Regex.search` with the three entries libstdc++ keeps in the results
behind `results.end()`: an unmatched entry, the prefix and the suffix after a match, and
three unmatched entries with both cursors equal to `last` after a failure. -/
def Regex.searchPadded (r : Regex) (fuel : Nat) (first last : Cursor) : Engine :=
  Regex.exec first fuel r first.pos
    (List.replicate (r.markCount + 1) { first := last, second := last, matched := false })
    (fun p c _ => Engine.atEnd p fun e => Engine.done true
      (c.set 0 { first := first, second := first.at p, matched := true } ++
        [{ first := last, second := last, matched := false },
         { first := first, second := first, matched := false },
         { first := first.at p, second := last, matched := !e }]))
    (Engine.done false (List.replicate 3 { first := last, second := last, matched := false }))

/-- The pattern `(\w+)`. -/
def patWord : Regex := Regex.group 1 (plus wordChar)

/-- The pattern `()`: one group that matches the empty string. -/
def patEmptyGroup : Regex := Regex.group 1 Regex.empty

/-- A heap whose only stream (handle 0) holds `abx`, nothing read yet. -/
def abxHeap : Heap := Heap.single (IStream.ofList ['a', 'b', 'x'])

/-- The heap after three characters of `abx` were pulled into vector 0. -/
def abxHeapAfter : Heap := (((Cursor.ofStream 0 abxHeap).2.pull 0 0).pull 0 0).pull 0 0

/-- Two text variables. -/
def twoTexts : Argpack := Argpack.cons (Binding.str []) (Argpack.last (Binding.str []))

/-- One integer variable. -/
def oneInt : Argpack := Argpack.last (Binding.int 7)

/-- A sub-match that took no part in a match: both cursors are the sentinel. -/
def unmatchedSub : SubMatch :=
  { first := Cursor.sentinel, second := Cursor.sentinel, matched := false }

/-- The vector `b` is faithful to what stream `s` had to deliver, `u`: it holds the
characters delivered so far, followed by one end-of-file value for every pull made after
the stream had nothing left; what the stream still delivers is the rest of `u`. -/
def Faithful (u : List Char) (b s : Nat) (h : Heap) : Prop :=
  ∃ pre k, h.bufs b = pre ++ List.replicate k eofChar ∧
    pre ++ (h.streams s).readAll = u ∧ (0 < k → (h.streams s).readAll = [])

/-- While stream `s` is good, vector `b` holds exactly the characters consumed from it
since it was in state `st0`. -/
def Consumed (st0 : IStream) (b s : Nat) (h : Heap) : Prop :=
  (h.streams s).good = true →
    (h.streams s).data = st0.data ∧
    (h.streams s).gpos = st0.gpos + (h.bufs b).length ∧
    h.bufs b = (st0.data.drop st0.gpos).take (h.bufs b).length

/-- The heap after four pulls from `abc` into vector 0: `a`, `b`, `c` and one
end-of-file value. -/
def abcHeapAfter : Heap :=
  ((((Cursor.ofStream 0 abcHeap).2.pull 0 0).pull 0 0).pull 0 0).pull 0 0

/-- One text variable. -/
def oneText : Argpack := Argpack.last (Binding.str [])

/-- The match results of `(\w+)` on `abc`: the whole match and the group, both `abc`. -/
def abcResults : List SubMatch :=
  [{ first := (Cursor.ofStream 0 abcHeap).1, second := (Cursor.ofStream 0 abcHeap).1.at 3,
     matched := true },
   { first := (Cursor.ofStream 0 abcHeap).1.at 0, second := (Cursor.ofStream 0 abcHeap).1.at 3,
     matched := true }]

/-- The match results of `()` on any stream: the whole match and the group, both empty
at position 0. -/
def emptyResults : List SubMatch :=
  [{ first := (Cursor.ofStream 0 abcHeap).1, second := (Cursor.ofStream 0 abcHeap).1.at 0,
     matched := true },
   { first := (Cursor.ofStream 0 abcHeap).1.at 0, second := (Cursor.ofStream 0 abcHeap).1.at 0,
     matched := true }]

end ByRegex

/-! # Properties -/

namespace ByRegex

/-! ## Facts about the heap and the cursor members -/

theorem sizeMod_pos : 0 < sizeMod := by decide

theorem sizeMod_eq : sizeMod = 18446744073709551616 := by decide

theorem Heap.pull_bufs_same (h : Heap) (b s : Nat) :
    (h.pull b s).bufs b = h.bufs b ++ [((h.streams s).get).1] := by
  simp [Heap.pull, Heap.setBuf, Heap.setStream]

theorem Heap.pull_bufs_other (h : Heap) (b s b' : Nat) (hne : b' ≠ b) :
    (h.pull b s).bufs b' = h.bufs b' := by
  simp [Heap.pull, Heap.setBuf, Heap.setStream, Function.update, hne]

theorem Heap.pull_streams_same (h : Heap) (b s : Nat) :
    (h.pull b s).streams s = ((h.streams s).get).2 := by
  simp [Heap.pull, Heap.setBuf, Heap.setStream]

theorem Heap.pull_streams_other (h : Heap) (b s s' : Nat) (hne : s' ≠ s) :
    (h.pull b s).streams s' = h.streams s' := by
  simp [Heap.pull, Heap.setBuf, Heap.setStream, Function.update, hne]

/-- A pull appends to one vector and leaves the others alone. -/
theorem Heap.pull_grows (h : Heap) (b s b' : Nat) : h.bufs b' <+: (h.pull b s).bufs b' := by
  by_cases hb : b' = b
  · subst hb
    rw [Heap.pull_bufs_same]
    exact List.prefix_append _ _
  · rw [Heap.pull_bufs_other h b s b' hb]

theorem Cursor.at_buf (c : Cursor) (p : Nat) : (c.at p).buf = c.buf := by cases c; rfl

theorem Cursor.at_is (c : Cursor) (p : Nat) : (c.at p).is = c.is := by cases c; rfl

theorem Cursor.at_pos (c : Cursor) (p : Nat) : (c.at p).pos = p := by cases c; rfl

theorem Cursor.at_at (c : Cursor) (p q : Nat) : (c.at p).at q = c.at q := by cases c; rfl

theorem Cursor.dec_buf (c : Cursor) : c.dec.buf = c.buf := by
  cases c; rfl

theorem Cursor.dec_is (c : Cursor) : c.dec.is = c.is := by
  cases c; rfl

theorem Cursor.dec_pos_of_pos (c : Cursor) (hpos : c.pos ≠ 0) (hlt : c.pos < sizeMod) :
    c.dec.pos = c.pos - 1 := by
  obtain ⟨cb, cp, ci⟩ := c
  simp only [Cursor.dec]
  simp only at hpos hlt
  rw [sizeMod_eq] at hlt ⊢
  omega

theorem Cursor.dec_at_succ (c : Cursor) (hlt : c.pos + 1 < sizeMod) :
    (c.at ((c.pos + 1) % sizeMod)).dec = c := by
  obtain ⟨cb, cp, ci⟩ := c
  simp only [Cursor.dec, Cursor.at, Cursor.mk.injEq, true_and, and_true]
  simp only at hlt
  rw [sizeMod_eq] at hlt ⊢
  omega

/-- Dereferencing a filled position reads the vector and changes nothing. -/
theorem Cursor.deref_filled (c : Cursor) (h : Heap) (b : Nat) (hb : c.buf = some b)
    (hp : c.pos < (h.bufs b).length) :
    c.deref h = some ((h.bufs b)[c.pos], h) := by
  have hn : ¬ (h.bufs b).length ≤ c.pos := by omega
  simp [Cursor.deref, Cursor.fill, hb, hn, List.getElem?_eq_getElem hp]

/-- Dereferencing the first unfilled position pulls one character and returns it. -/
theorem Cursor.deref_unfilled (c : Cursor) (h : Heap) (b s : Nat) (hb : c.buf = some b)
    (hs : c.is = some s) (hp : c.pos = (h.bufs b).length) :
    c.deref h = some (((h.streams s).get).1, h.pull b s) := by
  simp [Cursor.deref, Cursor.fill, hb, hs, hp, Heap.pull_bufs_same]

/-- The result of `advancePos` on a stream-backed cursor. -/
theorem Cursor.advancePos_eq (c : Cursor) (h : Heap) (b s : Nat) (hb : c.buf = some b)
    (hs : c.is = some s) :
    c.advancePos h =
      some (c.at ((c.pos + 1) % sizeMod),
        if (h.bufs b).length ≤ (c.pos + 1) % sizeMod then h.pull b s else h) := by
  obtain ⟨cb, cp, ci⟩ := c
  simp only at hb hs
  subst hb hs
  simp only [Cursor.advancePos, Cursor.at]
  split <;> rfl

theorem Cursor.endBuf_nonempty (c : Cursor) (h : Heap) (b : Nat) (hb : c.buf = some b)
    (hne : 0 < (h.bufs b).length) (hrep : (h.bufs b).length ≤ sizeMod) :
    c.endBuf h = some (c.at ((h.bufs b).length - 1)) := by
  obtain ⟨cb, cp, ci⟩ := c
  simp only at hb
  subst hb
  have hm : ((h.bufs b).length + sizeMod - 1) % sizeMod = (h.bufs b).length - 1 := by
    rw [sizeMod_eq] at hrep ⊢
    omega
  simp only [Cursor.endBuf, Cursor.at, hm]

theorem Cursor.fill_grows (c : Cursor) (h h1 : Heap) (hf : c.fill h = some h1) (b' : Nat) :
    h.bufs b' <+: h1.bufs b' := by
  unfold Cursor.fill at hf
  split at hf
  · cases hf
  · split at hf
    · split at hf
      · cases hf
      · cases hf
        exact Heap.pull_grows _ _ _ _
    · cases hf
      exact List.prefix_refl _

theorem Cursor.deref_grows (c : Cursor) (h h1 : Heap) (x : Char) (hd : c.deref h = some (x, h1))
    (b' : Nat) : h.bufs b' <+: h1.bufs b' := by
  unfold Cursor.deref at hd
  split at hd
  · rename_i b h2 _ hfill
    split at hd
    · cases hd
      exact Cursor.fill_grows c h _ hfill b'
    · cases hd
  · cases hd

theorem Cursor.advancePos_grows (c c1 : Cursor) (h h1 : Heap)
    (ha : c.advancePos h = some (c1, h1)) (b' : Nat) : h.bufs b' <+: h1.bufs b' := by
  unfold Cursor.advancePos at ha
  split at ha
  · cases ha
  · simp only at ha
    split at ha
    · split at ha
      · cases ha
      · cases ha
        exact Heap.pull_grows _ _ _ _
    · cases ha
      exact List.prefix_refl _

/-- Every operation leaves every vector a prefix of what it becomes. -/
theorem Op.run_grows (op : Op) (c c1 : Cursor) (h h1 : Heap) (hr : op.run c h = some (c1, h1))
    (b' : Nat) : h.bufs b' <+: h1.bufs b' := by
  cases op with
  | deref =>
    simp only [Op.run] at hr
    split at hr
    · rename_i x h2 hd
      cases hr
      exact Cursor.deref_grows c h _ x hd b'
    · cases hr
  | advance => exact Cursor.advancePos_grows c c1 h h1 hr b'
  | retreat => simp only [Op.run] at hr; cases hr; exact List.prefix_refl _
  | endBuf =>
    simp only [Op.run] at hr
    split at hr
    · cases hr; exact List.prefix_refl _
    · cases hr
  | copy => simp only [Op.run] at hr; cases hr; exact List.prefix_refl _
  | assign other => simp only [Op.run] at hr; cases hr; exact List.prefix_refl _

/-! ## The cursor: equality with the sentinel, dereference, advance, retreat -/

/-- C5: a cursor built over a stream compares equal to the default (sentinel) cursor
exactly when the stream's end-of-file flag is set; the sentinel may stand on either side,
and neither the cursor's position nor the contents of any buffer change the answer. -/
theorem cursor_eq_sentinel_iff_eof (h : Heap) (c : Cursor) (s : Nat) (hs : c.is = some s) :
    (Cursor.eq h c Cursor.sentinel = true ↔ (h.streams s).eofbit = true) ∧
    (Cursor.eq h Cursor.sentinel c = true ↔ (h.streams s).eofbit = true) ∧
    (∀ p : Nat, Cursor.eq h (c.at p) Cursor.sentinel = Cursor.eq h c Cursor.sentinel ∧
      Cursor.eq h Cursor.sentinel (c.at p) = Cursor.eq h Cursor.sentinel c) ∧
    (∀ v : List Char, ∀ b : Nat,
      Cursor.eq (h.setBuf b v) c Cursor.sentinel = Cursor.eq h c Cursor.sentinel ∧
      Cursor.eq (h.setBuf b v) Cursor.sentinel c = Cursor.eq h Cursor.sentinel c) := by
  simp [Cursor.eq, Cursor.sentinel, Cursor.at, hs, IStream.eof, Heap.setBuf]

/-- C5 at a concrete state: over the exhausted stream a cursor at position 0 of a
two-character buffer equals the sentinel. -/
theorem cursor_eq_sentinel_iff_eof_witness :
    (cursorAt 0).is = some 0 ∧ Cursor.eq exhaustedHeap (cursorAt 0) Cursor.sentinel = true :=
  ⟨rfl, (cursor_eq_sentinel_iff_eof exhaustedHeap (cursorAt 0) 0 rfl).1.mpr rfl⟩

/-- C7: dereference of a stream-backed cursor at position `p` over a buffer of length `n`,
`p ≤ n`.  When `p = n` exactly one character is pulled from the stream, appended to the
buffer and returned; when `p < n` nothing is pulled, heap unchanged, and `buffer[p]` is
returned.  In both cases the cursor keeps its position and the index read is inside the
buffer. -/
theorem deref_pulls_only_when_unfilled (c : Cursor) (h : Heap) (b s : Nat)
    (hb : c.buf = some b) (hs : c.is = some s) (hp : c.pos ≤ (h.bufs b).length) :
    (c.pos = (h.bufs b).length →
      c.deref h = some (((h.streams s).get).1, h.pull b s) ∧
      (h.pull b s).bufs b = h.bufs b ++ [((h.streams s).get).1] ∧
      (h.pull b s).streams s = ((h.streams s).get).2) ∧
    (c.pos < (h.bufs b).length →
      ∃ x, (h.bufs b).get? c.pos = some x ∧ c.deref h = some (x, h)) ∧
    (∃ x h1, c.deref h = some (x, h1) ∧ Op.run Op.deref c h = some (c, h1) ∧
      c.pos < (h1.bufs b).length ∧ (h1.bufs b).get? c.pos = some x) := by
  refine ⟨fun he => ⟨Cursor.deref_unfilled c h b s hb hs he, Heap.pull_bufs_same h b s,
    Heap.pull_streams_same h b s⟩, fun hlt => ⟨(h.bufs b)[c.pos],
    by simp [List.getElem?_eq_getElem hlt], Cursor.deref_filled c h b hb hlt⟩, ?_⟩
  rcases Nat.lt_or_ge c.pos (h.bufs b).length with hlt | hge
  · refine ⟨(h.bufs b)[c.pos], h, Cursor.deref_filled c h b hb hlt, ?_, hlt,
      by simp [List.getElem?_eq_getElem hlt]⟩
    simp [Op.run, Cursor.deref_filled c h b hb hlt]
  · have he : c.pos = (h.bufs b).length := Nat.le_antisymm hp hge
    refine ⟨((h.streams s).get).1, h.pull b s, Cursor.deref_unfilled c h b s hb hs he, ?_, ?_, ?_⟩
    · simp [Op.run, Cursor.deref_unfilled c h b s hb hs he]
    · rw [Heap.pull_bufs_same]; simp [he]
    · rw [Heap.pull_bufs_same]; simp [he]

/-- C7 at a concrete state: the cursor at position 1 of the one-character buffer `a`
pulls `b` from the stream. -/
theorem deref_pulls_only_when_unfilled_witness :
    (cursorAt 1).buf = some 0 ∧ (cursorAt 1).is = some 0 ∧
    (cursorAt 1).pos ≤ (oneCharHeap.bufs 0).length ∧
    (cursorAt 1).deref oneCharHeap = some (((oneCharHeap.streams 0).get).1, oneCharHeap.pull 0 0) ∧
    ((oneCharHeap.streams 0).get).1 = 'b' :=
  ⟨rfl, rfl, by decide,
    ((deref_pulls_only_when_unfilled (cursorAt 1) oneCharHeap 0 0 rfl rfl (by decide)).1 rfl).1,
    rfl⟩

/-- C8 as stated fails: at position 0 of a one-character buffer the new position 1 does
not exceed the buffer length 1, yet `advancePos` pulls the next character (the buffer
becomes `ab`, the stream moves from 1 to 2); and at the largest position value the new
position is 0. -/
theorem advance_pulls_at_length :
    ((cursorAt 0).advancePos oneCharHeap).map
      (fun r => (r.1.pos, decide (r.1.pos > (oneCharHeap.bufs 0).length), r.2.bufs 0,
        (r.2.streams 0).gpos))
      = some (1, false, ['a', 'b'], 2) ∧
    ((cursorAt (sizeMod - 1)).advancePos oneCharHeap).map (fun r => r.1.pos) = some 0 := by
  constructor
  · decide
  · decide

/-- C8 as amended: on a stream-backed cursor advance sets the position to `pos + 1`
modulo `2 ^ 64`, which is `pos + 1` below the largest position value; it pulls one more
character exactly when the new position is at least the buffer length, and otherwise
leaves the heap (buffer and stream) unchanged. -/
theorem advance_pulls_iff_unfilled (c : Cursor) (h : Heap) (b s : Nat)
    (hb : c.buf = some b) (hs : c.is = some s) :
    ∃ c1 h1, c.inc h = some (c1, h1) ∧
      c1.pos = (c.pos + 1) % sizeMod ∧ c1.buf = c.buf ∧ c1.is = c.is ∧
      (c.pos + 1 < sizeMod → c1.pos = c.pos + 1) ∧
      ((h.bufs b).length ≤ c1.pos →
        h1 = h.pull b s ∧ h1.bufs b = h.bufs b ++ [((h.streams s).get).1] ∧
        h1.streams s = ((h.streams s).get).2) ∧
      (c1.pos < (h.bufs b).length → h1 = h) := by
  refine ⟨c.at ((c.pos + 1) % sizeMod),
    if (h.bufs b).length ≤ (c.pos + 1) % sizeMod then h.pull b s else h,
    Cursor.advancePos_eq c h b s hb hs, Cursor.at_pos _ _, Cursor.at_buf _ _, Cursor.at_is _ _,
    ?_, ?_, ?_⟩
  · intro hlt
    rw [Cursor.at_pos]
    exact Nat.mod_eq_of_lt hlt
  · intro hle
    rw [Cursor.at_pos] at hle
    rw [if_pos hle]
    exact ⟨rfl, Heap.pull_bufs_same h b s, Heap.pull_streams_same h b s⟩
  · intro hlt
    rw [Cursor.at_pos] at hlt
    rw [if_neg (Nat.not_le.mpr hlt)]

/-- C8 as amended, at a concrete state: advancing from position 0 over the one-character
buffer. -/
theorem advance_pulls_iff_unfilled_witness :
    (cursorAt 0).buf = some 0 ∧ (cursorAt 0).is = some 0 ∧
    ∃ c1 h1, (cursorAt 0).inc oneCharHeap = some (c1, h1) ∧
      c1.pos = ((cursorAt 0).pos + 1) % sizeMod ∧ c1.buf = (cursorAt 0).buf ∧
      c1.is = (cursorAt 0).is ∧
      ((cursorAt 0).pos + 1 < sizeMod → c1.pos = (cursorAt 0).pos + 1) ∧
      ((oneCharHeap.bufs 0).length ≤ c1.pos →
        h1 = oneCharHeap.pull 0 0 ∧
        h1.bufs 0 = oneCharHeap.bufs 0 ++ [((oneCharHeap.streams 0).get).1] ∧
        h1.streams 0 = ((oneCharHeap.streams 0).get).2) ∧
      (c1.pos < (oneCharHeap.bufs 0).length → h1 = oneCharHeap) :=
  ⟨rfl, rfl, advance_pulls_iff_unfilled (cursorAt 0) oneCharHeap 0 0 rfl rfl⟩

/-- C6: for a stream-backed cursor standing inside or right behind its buffer (the buffer
being shorter than the largest position value), dereference yields some `x`; after
advance and retreat the cursor is the same again and dereference yields `x` once more,
with the heap (buffer and stream) as the advance left it: the retreat and the second
dereference pull nothing.  Over `abc` from a fresh cursor the three dereferences yield
`a`, `b`, `a`, and the stream has delivered two characters before and after the last
one. -/
theorem cursor_bidirectional :
    (∀ (c : Cursor) (h : Heap) (b s : Nat), c.buf = some b → c.is = some s →
      c.pos ≤ (h.bufs b).length → (h.bufs b).length + 1 < sizeMod →
      ∃ x h1 c2 h2, c.deref h = some (x, h1) ∧ c.inc h1 = some (c2, h2) ∧
        c2.pos = c.pos + 1 ∧ c2.dec = c ∧ c2.dec.deref h2 = some (x, h2)) ∧
    (do
      let r0 ← (Cursor.ofStream 0 abcHeap).1.deref (Cursor.ofStream 0 abcHeap).2
      let r1 ← (Cursor.ofStream 0 abcHeap).1.inc r0.2
      let r2 ← r1.1.deref r1.2
      let r3 ← r1.1.dec.deref r2.2
      pure (r0.1, r2.1, r3.1, r1.1.dec.pos, (r2.2.streams 0).gpos, (r3.2.streams 0).gpos,
        r3.2.bufs 0))
      = some ('a', 'b', 'a', 0, 2, 2, ['a', 'b']) := by
  refine ⟨?_, by rfl⟩
  intro c h b s hb hs hp hrep
  have hinc := fun h1 => Cursor.advancePos_eq c h1 b s hb hs
  have hmod : (c.pos + 1) % sizeMod = c.pos + 1 := Nat.mod_eq_of_lt (by omega)
  have hdec : (c.at ((c.pos + 1) % sizeMod)).dec = c := Cursor.dec_at_succ c (by omega)
  rcases Nat.lt_or_ge c.pos (h.bufs b).length with hlt | hge
  · refine ⟨(h.bufs b)[c.pos], h, _, _, Cursor.deref_filled c h b hb hlt, hinc h, ?_, hdec, ?_⟩
    · rw [Cursor.at_pos, hmod]
    · rw [hdec]
      by_cases hle : (h.bufs b).length ≤ (c.pos + 1) % sizeMod
      · rw [if_pos hle]
        have hlt2 : c.pos < ((h.pull b s).bufs b).length := by
          rw [Heap.pull_bufs_same]; simp; omega
        rw [Cursor.deref_filled c (h.pull b s) b hb hlt2]
        simp [Heap.pull_bufs_same, List.getElem_append_left hlt]
      · rw [if_neg hle]
        exact Cursor.deref_filled c h b hb hlt
  · have he : c.pos = (h.bufs b).length := Nat.le_antisymm hp hge
    refine ⟨_, _, _, _, Cursor.deref_unfilled c h b s hb hs he, hinc _, ?_, hdec, ?_⟩
    · rw [Cursor.at_pos, hmod]
    · rw [hdec]
      have hle : ((h.pull b s).bufs b).length ≤ (c.pos + 1) % sizeMod := by
        rw [Heap.pull_bufs_same, hmod]; simp; omega
      rw [if_pos hle]
      have hlt2 : c.pos < (((h.pull b s).pull b s).bufs b).length := by
        rw [Heap.pull_bufs_same, Heap.pull_bufs_same]; simp; omega
      rw [Cursor.deref_filled c _ b hb hlt2]
      simp [Heap.pull_bufs_same, he, List.getElem_append_right]

/-- C6 at a concrete state: the cursor at position 0 of the one-character buffer. -/
theorem cursor_bidirectional_witness :
    (cursorAt 0).buf = some 0 ∧ (cursorAt 0).is = some 0 ∧
    (cursorAt 0).pos ≤ (oneCharHeap.bufs 0).length ∧
    (oneCharHeap.bufs 0).length + 1 < sizeMod ∧
    ∃ x h1 c2 h2, (cursorAt 0).deref oneCharHeap = some (x, h1) ∧
      (cursorAt 0).inc h1 = some (c2, h2) ∧ c2.pos = (cursorAt 0).pos + 1 ∧
      c2.dec = cursorAt 0 ∧ c2.dec.deref h2 = some (x, h2) :=
  ⟨rfl, rfl, by decide, by decide,
    cursor_bidirectional.1 (cursorAt 0) oneCharHeap 0 0 rfl rfl (by decide) (by decide)⟩

/-- C9: the shared buffer is append-only.  Whatever a cursor operation (dereference,
advance, retreat, rewind-to-last, copy, assignment) returns, every vector before it is a
prefix of the same vector after it: its length does not decrease and no character already
in it changes.  On a stream-backed cursor standing inside or right behind its buffer
every one of these operations does return. -/
theorem buffer_append_only (op : Op) (c : Cursor) (h : Heap) :
    (∀ c1 h1, op.run c h = some (c1, h1) →
      ∀ b, h.bufs b <+: h1.bufs b ∧ (h.bufs b).length ≤ (h1.bufs b).length ∧
        ∀ i x, (h.bufs b).get? i = some x → (h1.bufs b).get? i = some x) ∧
    (∀ b s, c.buf = some b → c.is = some s → c.pos ≤ (h.bufs b).length →
      (op.run c h).isSome = true) := by
  constructor
  · intro c1 h1 hr b
    have hpre := Op.run_grows op c c1 h h1 hr b
    refine ⟨hpre, hpre.length_le, ?_⟩
    intro i x hx
    obtain ⟨t, ht⟩ := hpre
    rw [← ht]
    simp only [List.get?_eq_getElem?] at hx ⊢
    have hi : i < (h.bufs b).length := by
      by_contra hcon
      rw [List.getElem?_eq_none (by omega)] at hx
      cases hx
    rw [List.getElem?_append_left hi]
    exact hx
  · intro b s hb hs hp
    cases op with
    | deref =>
      rcases Nat.lt_or_ge c.pos (h.bufs b).length with hlt | hge
      · simp [Op.run, Cursor.deref_filled c h b hb hlt]
      · simp [Op.run, Cursor.deref_unfilled c h b s hb hs (Nat.le_antisymm hp hge)]
    | advance => simp [Op.run, Cursor.inc, Cursor.advancePos_eq c h b s hb hs]
    | retreat => simp [Op.run]
    | endBuf => simp [Op.run, Cursor.endBuf, hb]
    | copy => simp [Op.run]
    | assign other => simp [Op.run]

/-- C9 at a concrete state: advancing from position 0 over the one-character buffer
returns, and the buffer `a` is a prefix of the buffer afterwards. -/
theorem buffer_append_only_witness :
    (Op.run Op.advance (cursorAt 0) oneCharHeap).isSome = true ∧
    (∀ c1 h1, Op.run Op.advance (cursorAt 0) oneCharHeap = some (c1, h1) →
      oneCharHeap.bufs 0 <+: h1.bufs 0) :=
  ⟨(buffer_append_only Op.advance (cursorAt 0) oneCharHeap).2 0 0 rfl rfl (by decide),
    fun c1 h1 hr => ((buffer_append_only Op.advance (cursorAt 0) oneCharHeap).1 c1 h1 hr 0).1⟩

/-! ## The position never passes the buffer -/

/-- One of dereference, advance and retreat (not at position 0) keeps a stream-backed
cursor inside or right behind its buffer, and adds at most one character. -/
theorem Op.run_basic_inv (op : Op) (c : Cursor) (h : Heap) (b s k : Nat)
    (hop : op = Op.deref ∨ op = Op.advance ∨ op = Op.retreat)
    (hz : ¬ (op = Op.retreat ∧ c.pos = 0))
    (hb : c.buf = some b) (hs : c.is = some s) (hp : c.pos ≤ (h.bufs b).length)
    (hk : (h.bufs b).length ≤ k) (hrep : k + 1 < sizeMod) :
    ∃ c1 h1, op.run c h = some (c1, h1) ∧ c1.buf = some b ∧ c1.is = some s ∧
      c1.pos ≤ (h1.bufs b).length ∧ (h1.bufs b).length ≤ k + 1 ∧
      (op = Op.deref → c1.pos < (h1.bufs b).length) := by
  rcases hop with rfl | rfl | rfl
  · rcases Nat.lt_or_ge c.pos (h.bufs b).length with hlt | hge
    · refine ⟨c, h, ?_, hb, hs, hp, by omega, fun _ => hlt⟩
      simp [Op.run, Cursor.deref_filled c h b hb hlt]
    · have he : c.pos = (h.bufs b).length := Nat.le_antisymm hp hge
      refine ⟨c, h.pull b s, ?_, hb, hs, ?_, ?_, fun _ => ?_⟩
      · simp [Op.run, Cursor.deref_unfilled c h b s hb hs he]
      · rw [Heap.pull_bufs_same]; simp; omega
      · rw [Heap.pull_bufs_same]; simp; omega
      · rw [Heap.pull_bufs_same]; simp; omega
  · have hmod : (c.pos + 1) % sizeMod = c.pos + 1 := Nat.mod_eq_of_lt (by omega)
    refine ⟨_, _, Cursor.advancePos_eq c h b s hb hs, ?_, ?_, ?_, ?_, fun hne => by cases hne⟩
    · rw [Cursor.at_buf]; exact hb
    · rw [Cursor.at_is]; exact hs
    · rw [Cursor.at_pos, hmod]
      split
      · rw [Heap.pull_bufs_same]; simp; omega
      · omega
    · split
      · rw [Heap.pull_bufs_same]; simp; omega
      · omega
  · have hpos : c.pos ≠ 0 := fun h0 => hz ⟨rfl, h0⟩
    have hd : c.dec.pos = c.pos - 1 := Cursor.dec_pos_of_pos c hpos (by omega)
    refine ⟨c.dec, h, ?_, ?_, ?_, ?_, by omega, fun hne => by cases hne⟩
    · simp only [Op.run]
    · rw [Cursor.dec_buf]; exact hb
    · rw [Cursor.dec_is]; exact hs
    · omega

theorem runOps_basic_inv (ops : List Op) : ∀ (c : Cursor) (h : Heap) (b s k : Nat),
    basicOps ops = true → noRetreatAtZero ops c h = true →
    c.buf = some b → c.is = some s → c.pos ≤ (h.bufs b).length →
    (h.bufs b).length ≤ k → k + ops.length < sizeMod →
    ∃ c1 h1, runOps ops c h = some (c1, h1) ∧ c1.buf = some b ∧ c1.is = some s ∧
      c1.pos ≤ (h1.bufs b).length ∧ (h1.bufs b).length ≤ k + ops.length := by
  induction ops with
  | nil =>
    intro c h b s k _ _ hb hs hp hk _
    exact ⟨c, h, rfl, hb, hs, hp, by simpa using hk⟩
  | cons op ops ih =>
    intro c h b s k hbas hz hb hs hp hk hrep
    simp only [basicOps, List.all_cons, Bool.and_eq_true, Bool.or_eq_true, decide_eq_true_eq] at hbas
    simp only [List.length_cons] at hrep
    have hz1 : ¬ (op = Op.retreat ∧ c.pos = 0) := by
      intro hcon
      simp [noRetreatAtZero, hcon.1, hcon.2] at hz
    have hop : op = Op.deref ∨ op = Op.advance ∨ op = Op.retreat := by
      rcases hbas.1 with (h1 | h1) | h1
      · exact Or.inl h1
      · exact Or.inr (Or.inl h1)
      · exact Or.inr (Or.inr h1)
    obtain ⟨c1, h1, hrun, hb1, hs1, hp1, hk1, -⟩ :=
      Op.run_basic_inv op c h b s k hop hz1 hb hs hp hk (by omega)
    have hz2 : noRetreatAtZero ops c1 h1 = true := by
      simp only [noRetreatAtZero, hrun, Bool.and_eq_true] at hz
      exact hz.2
    obtain ⟨c2, h2, hrun2, hb2, hs2, hp2, hk2⟩ :=
      ih c1 h1 b s (k + 1) hbas.2 hz2 hb1 hs1 hp1 hk1 (by omega)
    refine ⟨c2, h2, ?_, hb2, hs2, hp2, ?_⟩
    · simp [runOps, hrun, hrun2]
    · simp only [List.length_cons]; omega

theorem runOps_append (ops1 ops2 : List Op) : ∀ (c : Cursor) (h : Heap),
    runOps (ops1 ++ ops2) c h =
      match runOps ops1 c h with
      | some (c1, h1) => runOps ops2 c1 h1
      | none => none := by
  induction ops1 with
  | nil => intro c h; rfl
  | cons op ops ih =>
    intro c h
    simp only [List.cons_append, runOps]
    cases hr : op.run c h with
    | none => rfl
    | some r => exact ih r.1 r.2

theorem noRetreatAtZero_append (ops1 ops2 : List Op) : ∀ (c c1 : Cursor) (h h1 : Heap),
    noRetreatAtZero (ops1 ++ ops2) c h = true → runOps ops1 c h = some (c1, h1) →
    noRetreatAtZero ops1 c h = true ∧ noRetreatAtZero ops2 c1 h1 = true := by
  induction ops1 with
  | nil =>
    intro c c1 h h1 hz hr
    simp only [runOps, Option.some.injEq, Prod.mk.injEq] at hr
    obtain ⟨rfl, rfl⟩ := hr
    exact ⟨rfl, hz⟩
  | cons op ops ih =>
    intro c c1 h h1 hz hr
    simp only [List.cons_append, noRetreatAtZero, Bool.and_eq_true] at hz
    simp only [runOps] at hr
    cases hrun : op.run c h with
    | none => rw [hrun] at hr; cases hr
    | some r =>
      obtain ⟨c0, h0⟩ := r
      rw [hrun] at hr hz
      have := ih c0 c1 h0 h1 hz.2 hr
      simp only [noRetreatAtZero, hrun, Bool.and_eq_true]
      exact ⟨⟨hz.1, this.1⟩, this.2⟩

/-- C10: from a freshly built cursor (position 0, empty buffer), every sequence of
dereference, advance and retreat operations in which no retreat is applied at position 0
runs to its end, and afterwards the position is at most the buffer length; when the last
operation is a dereference it is strictly less.  The sequence is shorter than the number
of values of the position type. -/
theorem position_within_buffer (h : Heap) (s : Nat) (ops : List Op)
    (hbasic : basicOps ops = true)
    (hz : noRetreatAtZero ops (Cursor.ofStream s h).1 (Cursor.ofStream s h).2 = true)
    (hrep : ops.length < sizeMod) :
    ∃ c1 h1, runOps ops (Cursor.ofStream s h).1 (Cursor.ofStream s h).2 = some (c1, h1) ∧
      c1.pos ≤ (h1.bufs h.nextBuf).length ∧
      (ops.getLast? = some Op.deref → c1.pos < (h1.bufs h.nextBuf).length) := by
  have hb0 : (Cursor.ofStream s h).1.buf = some h.nextBuf := rfl
  have hs0 : (Cursor.ofStream s h).1.is = some s := rfl
  have hp0 : (Cursor.ofStream s h).1.pos ≤ ((Cursor.ofStream s h).2.bufs h.nextBuf).length := by
    simp [Cursor.ofStream]
  have hl0 : ((Cursor.ofStream s h).2.bufs h.nextBuf).length ≤ 0 := by
    simp [Cursor.ofStream]
  obtain ⟨c1, h1, hrun, hb1, hs1, hp1, -⟩ :=
    runOps_basic_inv ops _ _ h.nextBuf s 0 hbasic hz hb0 hs0 hp0 hl0 (by omega)
  refine ⟨c1, h1, hrun, hp1, ?_⟩
  intro hlast
  obtain ⟨init, hinit⟩ : ∃ init, ops = init ++ [Op.deref] := by
    rcases List.eq_nil_or_concat ops with hnil | ⟨l, x, hx⟩
    · subst hnil; simp at hlast
    · subst hx
      simp only [List.concat_eq_append, List.getLast?_append, List.getLast?_singleton,
        Option.or, Option.some.injEq] at hlast
      exact ⟨l, by rw [hlast]; simp⟩
  subst hinit
  have hbas2 : basicOps init = true := by
    simp only [basicOps, List.all_append, Bool.and_eq_true] at hbasic
    exact hbasic.1
  simp only [List.length_append, List.length_singleton] at hrep
  rw [runOps_append] at hrun
  cases hri : runOps init (Cursor.ofStream s h).1 (Cursor.ofStream s h).2 with
  | none => rw [hri] at hrun; cases hrun
  | some r =>
    obtain ⟨ci, hi⟩ := r
    rw [hri] at hrun
    have hzs := noRetreatAtZero_append init [Op.deref] _ ci _ hi hz hri
    obtain ⟨c2, h2, hrun2, hb2, hs2, hp2, hk2⟩ :=
      runOps_basic_inv init _ _ h.nextBuf s 0 hbas2 hzs.1 hb0 hs0 hp0 hl0 (by omega)
    rw [hri] at hrun2
    simp only [Option.some.injEq, Prod.mk.injEq] at hrun2
    obtain ⟨rfl, rfl⟩ := hrun2
    obtain ⟨c3, h3, hrun3, -, -, -, -, hlt⟩ :=
      Op.run_basic_inv Op.deref ci hi h.nextBuf s (0 + init.length) (Or.inl rfl)
        (by intro hcon; cases hcon.1) hb2 hs2 hp2 hk2 (by omega)
    simp only [runOps] at hrun
    rw [hrun3] at hrun
    simp only [Option.some.injEq, Prod.mk.injEq] at hrun
    obtain ⟨rfl, rfl⟩ := hrun
    exact hlt rfl

/-- C10 at a concrete sequence over `abc`: dereference, advance, advance, retreat,
dereference. -/
theorem position_within_buffer_witness :
    basicOps [Op.deref, Op.advance, Op.advance, Op.retreat, Op.deref] = true ∧
    noRetreatAtZero [Op.deref, Op.advance, Op.advance, Op.retreat, Op.deref]
      (Cursor.ofStream 0 abcHeap).1 (Cursor.ofStream 0 abcHeap).2 = true ∧
    ∃ c1 h1, runOps [Op.deref, Op.advance, Op.advance, Op.retreat, Op.deref]
        (Cursor.ofStream 0 abcHeap).1 (Cursor.ofStream 0 abcHeap).2 = some (c1, h1) ∧
      c1.pos ≤ (h1.bufs abcHeap.nextBuf).length ∧
      ([Op.deref, Op.advance, Op.advance, Op.retreat, Op.deref].getLast? = some Op.deref →
        c1.pos < (h1.bufs abcHeap.nextBuf).length) :=
  ⟨by decide, by decide,
    position_within_buffer abcHeap 0 [Op.deref, Op.advance, Op.advance, Op.retreat, Op.deref]
      (by decide) (by decide) (by decide)⟩

/-! ## Building the string of a group -/

theorem Cursor.ne_at (h : Heap) (c : Cursor) (s p q : Nat) (hs : c.is = some s) :
    Cursor.ne h (c.at p) (c.at q) = !decide (p = q) := by
  obtain ⟨cb, cp, ci⟩ := c
  simp only at hs
  subst hs
  simp [Cursor.ne, Cursor.eq, Cursor.at]

theorem rangeString_sentinel (fuel : Nat) (h : Heap) :
    rangeString fuel Cursor.sentinel Cursor.sentinel h = some ([], h) := by
  cases fuel <;> simp [rangeString, Cursor.ne, Cursor.eq, Cursor.sentinel]

/-- Between two copies of a cursor standing inside the buffer the range constructor
returns the buffered characters and pulls nothing. -/
theorem rangeString_at (it : Cursor) (h : Heap) (b s : Nat) (hb : it.buf = some b)
    (hs : it.is = some s) (hrep : (h.bufs b).length ≤ sizeMod) :
    ∀ (n a fuel : Nat), a + n < (h.bufs b).length → n ≤ fuel →
      rangeString fuel (it.at a) (it.at (a + n)) h = some (((h.bufs b).drop a).take n, h) := by
  intro n
  induction n with
  | zero =>
    intro a fuel _ _
    have hne : Cursor.ne h (it.at a) (it.at a) = false := by
      rw [Cursor.ne_at h it s a a hs]; simp
    cases fuel <;> simp [rangeString, hne]
  | succ n ih =>
    intro a fuel ha hfuel
    have hne : Cursor.ne h (it.at a) (it.at (a + (n + 1))) = true := by
      rw [Cursor.ne_at h it s a (a + (n + 1)) hs]; simp
    obtain ⟨fuel1, rfl⟩ : ∃ f, fuel = f + 1 := ⟨fuel - 1, by omega⟩
    have hlt : (it.at a).pos < (h.bufs b).length := by rw [Cursor.at_pos]; omega
    have hbA : (it.at a).buf = some b := by rw [Cursor.at_buf]; exact hb
    have hsA : (it.at a).is = some s := by rw [Cursor.at_is]; exact hs
    have hd := Cursor.deref_filled (it.at a) h b hbA hlt
    have hmod : ((it.at a).pos + 1) % sizeMod = a + 1 := by
      rw [Cursor.at_pos]; exact Nat.mod_eq_of_lt (by omega)
    have hi : (it.at a).inc h = some (it.at (a + 1), h) := by
      have := Cursor.advancePos_eq (it.at a) h b s hbA hsA
      rw [hmod, Cursor.at_at, if_neg (by omega)] at this
      exact this
    have hrec := ih (a + 1) fuel1 (by omega) (by omega)
    have hidx : a + 1 + n = a + (n + 1) := by omega
    rw [hidx] at hrec
    have ha' : a < (h.bufs b).length := by omega
    rw [rangeString]
    simp only [hne, if_true, hd, hi, hrec]
    simp only [Cursor.at_pos]
    rw [List.drop_eq_getElem_cons ha', List.take_succ_cons]

theorem SubMatch.rangeString_spans (it : Cursor) (h : Heap) (b s : Nat) (hb : it.buf = some b)
    (hs : it.is = some s) (hrep : (h.bufs b).length ≤ sizeMod) (m : SubMatch)
    (hm : m.Spans it h) :
    rangeString sizeMod m.first m.second h = some (m.span h, h) := by
  rcases hm with ⟨h1, h2⟩ | ⟨b', hb', h1, h2, hle, hlt⟩
  · rw [h1, h2, rangeString_sentinel]
    simp [SubMatch.span, h1, Cursor.sentinel]
  · have hbb : b' = b := by rw [hb] at hb'; exact (Option.some.inj hb').symm
    subst hbb
    have key := rangeString_at it h b' s hb hs hrep (m.second.pos - m.first.pos) m.first.pos
      sizeMod (by omega) (by omega)
    have hidx : m.first.pos + (m.second.pos - m.first.pos) = m.second.pos := by omega
    rw [hidx, ← h1, ← h2] at key
    rw [key]
    have hfb : m.first.buf = some b' := by rw [h1, Cursor.at_buf]; exact hb
    simp [SubMatch.span, hfb]

/-! ## The pack of variables -/

theorem Argpack.size_last (a : Binding) : (Argpack.last a).size = 1 := rfl

theorem Argpack.size_cons (a : Binding) (n : Argpack) : (Argpack.cons a n).size = n.size + 1 := rfl

/-- Walking the pack from index `i` over groups that lie inside the buffer: variable `j`
is read from the span of group `i + j`, and the heap is unchanged. -/
theorem Argpack.extract_spans (it : Cursor) (h : Heap) (b s : Nat) (hb : it.buf = some b)
    (hs : it.is = some s) (hrep : (h.bufs b).length ≤ sizeMod) (results : List SubMatch)
    (args : Argpack) : ∀ (i : Nat),
    (∀ k, i ≤ k → k < i + args.size → ∃ m, results.get? k = some m ∧ m.Spans it h) →
    ∃ args1, args.extract results i h = some (args1, h) ∧ args1.size = args.size ∧
      ∀ j, j < args.size → ∃ m old, results.get? (i + j) = some m ∧
        args.toList.get? j = some old ∧ args1.toList.get? j = some (old.read (m.span h)) := by
  induction args with
  | last a =>
    intro i hwf
    obtain ⟨m, hm, hsp⟩ := hwf i (Nat.le_refl i) (by rw [Argpack.size_last]; omega)
    refine ⟨Argpack.last (a.read (m.span h)), ?_, rfl, ?_⟩
    · simp only [Argpack.extract, hm, SubMatch.rangeString_spans it h b s hb hs hrep m hsp]
    · intro j hj
      rw [Argpack.size_last] at hj
      have hj0 : j = 0 := by omega
      subst hj0
      exact ⟨m, a, hm, rfl, rfl⟩
  | cons a n ih =>
    intro i hwf
    obtain ⟨m, hm, hsp⟩ := hwf i (Nat.le_refl i) (by rw [Argpack.size_cons]; omega)
    obtain ⟨rest, hrest, hsize, hget⟩ := ih (i + 1) (fun k hk1 hk2 =>
      hwf k (by omega) (by rw [Argpack.size_cons]; omega))
    refine ⟨Argpack.cons (a.read (m.span h)) rest, ?_, ?_, ?_⟩
    · simp only [Argpack.extract, hm, SubMatch.rangeString_spans it h b s hb hs hrep m hsp, hrest]
    · rw [Argpack.size_cons, Argpack.size_cons, hsize]
    · intro j hj
      rw [Argpack.size_cons] at hj
      cases j with
      | zero => exact ⟨m, a, hm, rfl, rfl⟩
      | succ j =>
        obtain ⟨m1, old, h1, h2, h3⟩ := hget j (by omega)
        refine ⟨m1, old, ?_, ?_, ?_⟩
        · have : i + (j + 1) = i + 1 + j := by omega
          rw [this]; exact h1
        · simpa [Argpack.toList] using h2
        · simpa [Argpack.toList] using h3

/-- From index 1 on the walk never looks at entry 0 of the results. -/
theorem Argpack.extract_ignores_group_zero (results : List SubMatch) (m0 : SubMatch)
    (args : Argpack) : ∀ (i : Nat) (h : Heap), 1 ≤ i →
    args.extract (results.set 0 m0) i h = args.extract results i h := by
  induction args with
  | last a =>
    intro i h hi
    have hg : (results.set 0 m0).get? i = results.get? i := by
      simp only [List.get?_eq_getElem?]
      exact List.getElem?_set_ne (by omega)
    simp only [Argpack.extract, hg]
  | cons a n ih =>
    intro i h hi
    have hg : (results.set 0 m0).get? i = results.get? i := by
      simp only [List.get?_eq_getElem?]
      exact List.getElem?_set_ne (by omega)
    simp only [Argpack.extract, hg]
    cases results.get? i with
    | none => rfl
    | some m =>
      simp only
      cases rangeString sizeMod m.first m.second h with
      | none => rfl
      | some r =>
        simp only
        rw [ih (i + 1) r.2 (by omega)]

/-- What `extract` does after a search that left a non-empty buffer and whose groups
`1..N` exist and lie inside the buffer. -/
theorem extract_after_search (regex : Cursor → Cursor → Engine) (args : Argpack) (s : Nat)
    (h : Heap) (flag : Bool) (results : List SubMatch) (h1 : Heap)
    (hrun : (regex (Cursor.ofStream s h).1 Cursor.sentinel).run (Cursor.ofStream s h).1
      Cursor.sentinel (Cursor.ofStream s h).2 = some (flag, results, h1))
    (hne : 0 < (h1.bufs h.nextBuf).length) (hrep : (h1.bufs h.nextBuf).length ≤ sizeMod)
    (hN : args.size < results.length)
    (hwf : ∀ k m, 1 ≤ k → k ≤ args.size → results.get? k = some m →
      m.Spans (Cursor.ofStream s h).1 h1) :
    ∃ args1, args.extract results 1 h1 = some (args1, h1) ∧
      extract regex args s h = some (flag, args1,
        h1.setStream s ((h1.streams s).putback
          ((h1.bufs h.nextBuf)[(h1.bufs h.nextBuf).length - 1]))) ∧
      args1.size = args.size ∧
      ∀ j, j < args.size → ∃ m old, results.get? (j + 1) = some m ∧
        args.toList.get? j = some old ∧ args1.toList.get? j = some (old.read (m.span h1)) := by
  have hb0 : (Cursor.ofStream s h).1.buf = some h.nextBuf := rfl
  have hs0 : (Cursor.ofStream s h).1.is = some s := rfl
  obtain ⟨args1, hex, hsize, hget⟩ := Argpack.extract_spans (Cursor.ofStream s h).1 h1
    h.nextBuf s hb0 hs0 hrep results args 1 (by
      intro k hk1 hk2
      have hk : k < results.length := by omega
      refine ⟨results[k], by simp [List.getElem?_eq_getElem hk], ?_⟩
      exact hwf k _ hk1 (by omega) (by simp [List.getElem?_eq_getElem hk]))
  refine ⟨args1, hex, ?_, hsize, ?_⟩
  · have hend := Cursor.endBuf_nonempty (Cursor.ofStream s h).1 h1 h.nextBuf hb0 hne hrep
    have hlt : (((Cursor.ofStream s h).1).at ((h1.bufs h.nextBuf).length - 1)).pos
        < (h1.bufs h.nextBuf).length := by rw [Cursor.at_pos]; omega
    have hd := Cursor.deref_filled _ h1 h.nextBuf
      (by rw [Cursor.at_buf]; exact hb0) hlt
    simp only [Cursor.at_pos] at hd
    unfold extract
    simp only [hrun, hex, hend, hd]
  · intro j hj
    obtain ⟨m, old, h1', h2, h3⟩ := hget j hj
    exact ⟨m, old, by rw [Nat.add_comm]; exact h1', h2, h3⟩

/-! ## The extractor -/

/-- C1 fails on the code.  For the pattern `(abc|a)` on the stream `abd` the search
succeeds with the whole match at positions 0 to 1 (the text `a`) after buffering `abd`;
`extract` returns true and binds `a`, but only the last buffered character is put back,
so a later reader obtains `d` and not the `bd` that followed the match.  On the stream
`ab` the same search reports no match at all: pulling past the end sets the end-of-file
flag, after which the cursor at position 0 compares equal to the end. -/
theorem extract_overreads_past_match :
    ((patAbcOrA.search 100 (Cursor.ofStream 0 (Heap.single (IStream.ofList ['a', 'b', 'd']))).1
        Cursor.sentinel).run (Cursor.ofStream 0 (Heap.single (IStream.ofList ['a', 'b', 'd']))).1
        Cursor.sentinel (Cursor.ofStream 0 (Heap.single (IStream.ofList ['a', 'b', 'd']))).2).map
      (fun r => (r.1, r.2.1.map (fun m => (m.first.pos, m.second.pos)), r.2.2.bufs 0))
      = some (true, [(0, 1), (0, 1)], ['a', 'b', 'd']) ∧
    observe 0 (extract (patAbcOrA.search 100) (Argpack.last (Binding.str [])) 0
        (Heap.single (IStream.ofList ['a', 'b', 'd'])))
      = some (true, [Binding.str ['a']], ['d']) ∧
    ['d'] ≠ ['a', 'b', 'd'].drop 1 ∧
    ((patAbcOrA.search 100 (Cursor.ofStream 0 (Heap.single (IStream.ofList ['a', 'b']))).1
        Cursor.sentinel).run (Cursor.ofStream 0 (Heap.single (IStream.ofList ['a', 'b']))).1
        Cursor.sentinel (Cursor.ofStream 0 (Heap.single (IStream.ofList ['a', 'b']))).2).map
      (fun r => (r.1, r.2.2.bufs 0, (r.2.2.streams 0).eofbit))
      = some (false, ['a', 'b', eofChar], true) := by
  refine ⟨by rfl, by rfl, by decide, by rfl⟩

/-- C2 fails on the code.  `extract` hands `++results.begin()` to the pack whether or not
the search matched.  For the pattern `(a)(b)(c)` on the stream `x` the search fails and
leaves no sub-match, and the walk over three text variables reads outside the results:
the call has no defined outcome.  The same holds when the failed search leaves three
unmatched entries behind. -/
theorem extract_walks_results_after_failed_match :
    ((patABC.search 100 (Cursor.ofStream 0 (Heap.single (IStream.ofList ['x']))).1
        Cursor.sentinel).run (Cursor.ofStream 0 (Heap.single (IStream.ofList ['x']))).1
        Cursor.sentinel (Cursor.ofStream 0 (Heap.single (IStream.ofList ['x']))).2).map
      (fun r => (r.1, r.2.1)) = some (false, []) ∧
    observe 0 (extract (patABC.search 100) threeTexts 0 (Heap.single (IStream.ofList ['x'])))
      = none ∧
    observe 0 (extract failedSearchPadded threeTexts 0 (Heap.single (IStream.ofList ['x'])))
      = none := by
  refine ⟨by rfl, by rfl, by rfl⟩

/-- C3: after a successful search whose results hold the groups `1..N` for the `N` bound
variables, each of them lying inside the buffer (or unmatched), `extract` returns true
and variable `k` (counted from 1, in declaration order) holds the textual parse of the
substring spanned by group `k`; entry 0, the whole match, plays no part: replacing it
changes nothing. -/
theorem bindings_filled_from_groups (regex : Cursor → Cursor → Engine) (args : Argpack) (s : Nat)
    (h : Heap) (results : List SubMatch) (h1 : Heap)
    (hrun : (regex (Cursor.ofStream s h).1 Cursor.sentinel).run (Cursor.ofStream s h).1
      Cursor.sentinel (Cursor.ofStream s h).2 = some (true, results, h1))
    (hne : 0 < (h1.bufs h.nextBuf).length) (hrep : (h1.bufs h.nextBuf).length ≤ sizeMod)
    (hN : args.size < results.length)
    (hwf : ∀ k m, 1 ≤ k → k ≤ args.size → results.get? k = some m →
      m.Spans (Cursor.ofStream s h).1 h1) :
    ∃ args1 h2, extract regex args s h = some (true, args1, h2) ∧
      args1.size = args.size ∧
      (∀ j, j < args.size → ∃ m old, results.get? (j + 1) = some m ∧
        args.toList.get? j = some old ∧ args1.toList.get? j = some (old.read (m.span h1))) ∧
      (∀ m0 : SubMatch, args.extract (results.set 0 m0) 1 h1 = args.extract results 1 h1) := by
  obtain ⟨args1, -, hex, hsize, hget⟩ :=
    extract_after_search regex args s h true results h1 hrun hne hrep hN hwf
  exact ⟨args1, _, hex, hsize, hget,
    fun m0 => Argpack.extract_ignores_group_zero results m0 args 1 h1 (Nat.le_refl 1)⟩

/-- C3 at a concrete call: the pattern `(\d+)\s(\w+)` on the stream `42 foo\n` with an
integer and a text variable. -/
theorem bindings_filled_from_groups_witness :
    (((patTwoGroups.search 100) (Cursor.ofStream 0 fooHeap).1 Cursor.sentinel).run
      (Cursor.ofStream 0 fooHeap).1 Cursor.sentinel (Cursor.ofStream 0 fooHeap).2
      = some (true, fooResults, fooHeapAfter)) ∧
    fooArgs.size < fooResults.length ∧
    ∃ args1 h2, extract (patTwoGroups.search 100) fooArgs 0 fooHeap = some (true, args1, h2) ∧
      args1.size = fooArgs.size ∧
      (∀ j, j < fooArgs.size → ∃ m old, fooResults.get? (j + 1) = some m ∧
        fooArgs.toList.get? j = some old ∧
        args1.toList.get? j = some (old.read (m.span fooHeapAfter))) ∧
      (∀ m0 : SubMatch, fooArgs.extract (fooResults.set 0 m0) 1 fooHeapAfter
        = fooArgs.extract fooResults 1 fooHeapAfter) :=
  ⟨by rfl, by decide,
  bindings_filled_from_groups (patTwoGroups.search 100) fooArgs 0 fooHeap fooResults fooHeapAfter
    (by rfl) (by decide) (by decide) (by decide) (by
      intro k m hk1 hk2 hm
      have hk : k = 1 ∨ k = 2 := by
        have : k ≤ 2 := hk2
        omega
      rcases hk with rfl | rfl
      · have : m = { first := fooCursor.at 0, second := fooCursor.at 2, matched := true } := by
          have h2 : fooResults.get? 1 = some
              { first := fooCursor.at 0, second := fooCursor.at 2, matched := true } := rfl
          rw [h2] at hm
          exact (Option.some.inj hm).symm
        subst this
        exact Or.inr ⟨0, rfl, rfl, rfl, by decide, by decide⟩
      · have : m = { first := fooCursor.at 3, second := fooCursor.at 6, matched := true } := by
          have h2 : fooResults.get? 2 = some
              { first := fooCursor.at 3, second := fooCursor.at 6, matched := true } := rfl
          rw [h2] at hm
          exact (Option.some.inj hm).symm
        subst this
        exact Or.inr ⟨0, rfl, rfl, rfl, by decide, by decide⟩)⟩

/-- C4 as stated fails: with the three capturing groups `(\d+)(\s)(\w+)` on the stream
`42 foo\n`, bound to an integer and a text variable, `extract` returns true, the integer
is 42 and the next read yields the newline, but the text variable, fed from group 2 (the
whitespace), keeps its old value and is not `foo`. -/
theorem round_trip_three_groups_text_not_foo :
    observe 0 (extract (patThreeGroups.search 100) fooArgs 0 fooHeap)
      = some (true, [Binding.int 42, Binding.str []], [Char.ofNat 10]) ∧
    observe 0 (extract (patThreeGroups.search 100) fooArgs 0 fooHeap)
      ≠ some (true, [Binding.int 42, Binding.str ['f', 'o', 'o']], [Char.ofNat 10]) := by
  refine ⟨by rfl, by decide⟩

/-- C4 as amended: with the pattern `(\d+)\s(\w+)`, which captures the digits and the
word and matches the whitespace between them without a group, on the stream `42 foo\n`,
`extract` returns true, the integer variable is 42, the text variable is `foo`, and the
next read from the stream yields the newline; whatever the variables held before. -/
theorem round_trip_two_groups (i0 : Int) (t0 : List Char) :
    observe 0 (extract (patTwoGroups.search 100)
        (Argpack.cons (Binding.int i0) (Argpack.last (Binding.str t0))) 0 fooHeap)
      = some (true, [Binding.int 42, Binding.str ['f', 'o', 'o']], [Char.ofNat 10]) := by
  rfl

/-! ## Equality of cursors -/

/-- C17: cursor equality is symmetric.  For all cursors `a` and `b`, sentinel or
stream-backed and in any state of the heap, `a == b` and `b == a` give the same answer,
and `a != b` is the negation of `a == b`. -/
theorem cursor_eq_symmetric (h : Heap) (a b : Cursor) :
    Cursor.eq h a b = Cursor.eq h b a ∧ Cursor.ne h a b = !Cursor.eq h a b := by
  refine ⟨?_, rfl⟩
  obtain ⟨ab, ap, ai⟩ := a
  obtain ⟨bb, bp, bi⟩ := b
  cases ai <;> cases bi <;> simp [Cursor.eq, eq_comm, Bool.and_comm]

/-- C18: cursor equality is not transitive.  Over the exhausted stream the cursors at
positions 0 and 1 of one buffer both equal the sentinel, and the sentinel equals both,
yet they do not equal each other.  Two stream-backed cursors are equal only if they have
the same stream, the same buffer and the same position. -/
theorem cursor_eq_not_transitive :
    ((exhaustedHeap.streams 0).eof = true ∧
      (cursorAt 0).buf = (cursorAt 1).buf ∧ (cursorAt 0).is = (cursorAt 1).is ∧
      (cursorAt 0).pos ≠ (cursorAt 1).pos ∧
      Cursor.eq exhaustedHeap (cursorAt 0) Cursor.sentinel = true ∧
      Cursor.eq exhaustedHeap Cursor.sentinel (cursorAt 1) = true ∧
      Cursor.eq exhaustedHeap (cursorAt 0) (cursorAt 1) = false) ∧
    (∀ (h : Heap) (a b : Cursor), a.is ≠ none → b.is ≠ none → Cursor.eq h a b = true →
      a.is = b.is ∧ a.buf = b.buf ∧ a.pos = b.pos) := by
  refine ⟨by decide, ?_⟩
  intro h a b ha hb he
  obtain ⟨ab, ap, ai⟩ := a
  obtain ⟨bb, bp, bi⟩ := b
  cases ai with
  | none => exact absurd rfl ha
  | some x =>
    cases bi with
    | none => exact absurd rfl hb
    | some y =>
      simp only [Cursor.eq, Bool.and_eq_true, decide_eq_true_eq] at he
      exact ⟨he.1.1, he.2, he.1.2⟩

/-- C18 at concrete cursors: two different positions over one stream and one buffer are
not equal, and equal cursors agree in all three fields. -/
theorem cursor_eq_not_transitive_witness :
    (cursorAt 3).is ≠ none ∧ Cursor.eq oneCharHeap (cursorAt 3) (cursorAt 3) = true ∧
    ((cursorAt 3).is = (cursorAt 3).is ∧ (cursorAt 3).buf = (cursorAt 3).buf ∧
      (cursorAt 3).pos = (cursorAt 3).pos) :=
  ⟨by decide, by decide,
    cursor_eq_not_transitive.2 oneCharHeap (cursorAt 3) (cursorAt 3) (by decide) (by decide)
      (by decide)⟩

/-! ## Rewinding to the last buffered character -/

/-- C13: on a cursor whose buffer holds `n ≥ 1` characters, rewind-to-last sets the
position to `n - 1`; the dereference that follows returns the last character of the
buffer, which is the character most recently pulled from the stream, pulls nothing and
leaves the heap, buffer included, unchanged. -/
theorem rewind_to_last (c : Cursor) (h : Heap) (b : Nat) (hb : c.buf = some b)
    (hn : 0 < (h.bufs b).length) (hrep : (h.bufs b).length ≤ sizeMod) :
    ∃ c1 x, c.endBuf h = some c1 ∧ c1.pos = (h.bufs b).length - 1 ∧
      c1.buf = c.buf ∧ c1.is = c.is ∧
      c1.deref h = some (x, h) ∧ (h.bufs b).getLast? = some x ∧
      (∀ (h0 : Heap) (s0 : Nat), h = h0.pull b s0 → x = ((h0.streams s0).get).1) := by
  have hlt : (c.at ((h.bufs b).length - 1)).pos < (h.bufs b).length := by
    rw [Cursor.at_pos]; omega
  have hd := Cursor.deref_filled (c.at ((h.bufs b).length - 1)) h b
    (by rw [Cursor.at_buf]; exact hb) hlt
  have hlast : (h.bufs b).getLast? = some ((h.bufs b)[(h.bufs b).length - 1]) := by
    rw [List.getLast?_eq_getElem?]
    exact List.getElem?_eq_getElem (by omega)
  refine ⟨c.at ((h.bufs b).length - 1), (h.bufs b)[(h.bufs b).length - 1],
    Cursor.endBuf_nonempty c h b hb hn hrep, Cursor.at_pos _ _, Cursor.at_buf _ _,
    Cursor.at_is _ _, ?_, hlast, ?_⟩
  · simpa only [Cursor.at_pos] using hd
  · intro h0 s0 hh
    subst hh
    simp [Heap.pull_bufs_same]

/-- C13 at a concrete state: over the one-character buffer `a` rewind-to-last gives
position 0. -/
theorem rewind_to_last_witness :
    (cursorAt 5).buf = some 0 ∧ 0 < (oneCharHeap.bufs 0).length ∧
    (oneCharHeap.bufs 0).length ≤ sizeMod ∧
    ∃ c1 x, (cursorAt 5).endBuf oneCharHeap = some c1 ∧
      c1.pos = (oneCharHeap.bufs 0).length - 1 ∧
      c1.buf = (cursorAt 5).buf ∧ c1.is = (cursorAt 5).is ∧
      c1.deref oneCharHeap = some (x, oneCharHeap) ∧ (oneCharHeap.bufs 0).getLast? = some x ∧
      (∀ (h0 : Heap) (s0 : Nat), oneCharHeap = h0.pull 0 s0 → x = ((h0.streams s0).get).1) :=
  ⟨rfl, by decide, by decide,
    rewind_to_last (cursorAt 5) oneCharHeap 0 rfl (by decide) (by decide)⟩

/-! ## Reading from the stream -/

theorem IStream.drain_not_good (fuel : Nat) (st : IStream) (hg : st.good = false) :
    IStream.drain fuel st = [] := by
  cases fuel <;> simp [IStream.drain, hg]

theorem IStream.get_of_good_some (st : IStream) (c : Char) (hg : st.good = true)
    (hc : st.data.get? st.gpos = some c) :
    st.get = (c, { st with gpos := st.gpos + 1 }) := by
  simp only [IStream.get, hg, if_true, hc]

theorem IStream.get_of_good_none (st : IStream) (hg : st.good = true)
    (hc : st.data.get? st.gpos = none) :
    st.get = (eofChar, { st with eofbit := true, failbit := true }) := by
  simp only [IStream.get, hg, if_true, hc]

theorem IStream.get_of_not_good (st : IStream) (hg : st.good = false) :
    st.get = (eofChar, { st with failbit := true }) := by
  simp [IStream.get, hg]

/-- A good stream delivers the rest of its character sequence. -/
theorem IStream.drain_good (fuel : Nat) : ∀ (st : IStream), st.good = true →
    st.data.length - st.gpos ≤ fuel → IStream.drain fuel st = st.data.drop st.gpos := by
  induction fuel with
  | zero =>
    intro st _ hf
    simp only [IStream.drain]
    exact (List.drop_eq_nil_of_le (by omega)).symm
  | succ fuel ih =>
    intro st hg hf
    simp only [IStream.drain, hg, if_true]
    cases hc : st.data.get? st.gpos with
    | none =>
      simp only
      rw [List.get?_eq_getElem?, List.getElem?_eq_none_iff] at hc
      exact (List.drop_eq_nil_of_le hc).symm
    | some c =>
      simp only
      rw [IStream.get_of_good_some st c hg hc]
      have hlt : st.gpos < st.data.length := by
        rw [List.get?_eq_getElem?] at hc
        exact (List.getElem?_eq_some_iff.mp hc).1
      have hg2 : ({ st with gpos := st.gpos + 1 } : IStream).good = true := hg
      rw [ih _ hg2 (by simp only; omega)]
      have hce : st.data[st.gpos] = c := by
        rw [List.get?_eq_getElem?] at hc
        exact (List.getElem?_eq_some_iff.mp hc).2
      rw [List.drop_eq_getElem_cons hlt, hce]

theorem IStream.readAll_good (st : IStream) (hg : st.good = true) :
    st.readAll = st.data.drop st.gpos :=
  IStream.drain_good _ st hg (by omega)

theorem IStream.readAll_not_good (st : IStream) (hg : st.good = false) : st.readAll = [] :=
  IStream.drain_not_good _ st hg

/-- One `get()` delivers the first character a reader would obtain, or the end-of-file
value when there is none, and leaves the rest to later reads. -/
theorem IStream.get_readAll (st : IStream) :
    (st.get).1 = (st.readAll.head?).getD eofChar ∧ (st.get).2.readAll = st.readAll.tail := by
  cases hg : st.good with
  | false =>
    rw [IStream.get_of_not_good st hg, IStream.readAll_not_good st hg]
    refine ⟨rfl, ?_⟩
    apply IStream.readAll_not_good
    simp [IStream.good]
  | true =>
    rw [IStream.readAll_good st hg]
    cases hc : st.data.get? st.gpos with
    | none =>
      rw [IStream.get_of_good_none st hg hc]
      rw [List.get?_eq_getElem?, List.getElem?_eq_none_iff] at hc
      rw [List.drop_eq_nil_of_le hc]
      refine ⟨rfl, ?_⟩
      apply IStream.readAll_not_good
      simp [IStream.good]
    | some c =>
      rw [IStream.get_of_good_some st c hg hc]
      rw [List.get?_eq_getElem?] at hc
      have hlt : st.gpos < st.data.length := (List.getElem?_eq_some_iff.mp hc).1
      have hce : st.data[st.gpos] = c := (List.getElem?_eq_some_iff.mp hc).2
      have hg2 : ({ st with gpos := st.gpos + 1 } : IStream).good = true := hg
      rw [List.drop_eq_getElem_cons hlt, hce, IStream.readAll_good _ hg2]
      exact ⟨rfl, rfl⟩

/-! ## Every change of the heap is a pull -/

theorem Cursor.fill_step (c : Cursor) (hh h1 : Heap) (b s : Nat) (hb : c.buf = some b)
    (hs : c.is = some s) (hf : c.fill hh = some h1) : h1 = hh ∨ h1 = hh.pull b s := by
  unfold Cursor.fill at hf
  rw [hb] at hf
  simp only [hs] at hf
  split at hf
  · exact Or.inr (Option.some.inj hf).symm
  · exact Or.inl (Option.some.inj hf).symm

theorem Cursor.deref_step (c : Cursor) (hh h1 : Heap) (x : Char) (b s : Nat)
    (hb : c.buf = some b) (hs : c.is = some s) (hd : c.deref hh = some (x, h1)) :
    h1 = hh ∨ h1 = hh.pull b s := by
  unfold Cursor.deref at hd
  split at hd
  · rename_i b' h2 _ hfill
    split at hd
    · cases hd
      exact Cursor.fill_step c hh _ b s hb hs hfill
    · cases hd
  · cases hd

theorem Cursor.inc_step (c c1 : Cursor) (hh h1 : Heap) (b s : Nat)
    (hb : c.buf = some b) (hs : c.is = some s) (hi : c.inc hh = some (c1, h1)) :
    (h1 = hh ∨ h1 = hh.pull b s) ∧ c1.buf = some b ∧ c1.is = some s := by
  have he := Cursor.advancePos_eq c hh b s hb hs
  unfold Cursor.inc at hi
  rw [he] at hi
  simp only [Option.some.injEq, Prod.mk.injEq] at hi
  obtain ⟨rfl, rfl⟩ := hi
  refine ⟨?_, by rw [Cursor.at_buf]; exact hb, by rw [Cursor.at_is]; exact hs⟩
  split
  · exact Or.inr rfl
  · exact Or.inl rfl

/-- One operation on a cursor over vector `b` and stream `s` leaves the heap as it is or
makes one pull, and the cursor stays over `b` and `s`. -/
theorem Op.run_step (op : Op) (c c1 : Cursor) (hh h1 : Heap) (b s : Nat)
    (hb : c.buf = some b) (hs : c.is = some s)
    (hsh : sharing c [op] = true) (hr : op.run c hh = some (c1, h1)) :
    (h1 = hh ∨ h1 = hh.pull b s) ∧ c1.buf = some b ∧ c1.is = some s := by
  cases op with
  | deref =>
    simp only [Op.run] at hr
    split at hr
    · rename_i x h2 hd
      cases hr
      exact ⟨Cursor.deref_step c hh _ x b s hb hs hd, hb, hs⟩
    · cases hr
  | advance => exact Cursor.inc_step c c1 hh h1 b s hb hs hr
  | retreat =>
    simp only [Op.run, Option.some.injEq, Prod.mk.injEq] at hr
    obtain ⟨rfl, rfl⟩ := hr
    exact ⟨Or.inl rfl, by rw [Cursor.dec_buf]; exact hb, by rw [Cursor.dec_is]; exact hs⟩
  | endBuf =>
    simp only [Op.run] at hr
    split at hr
    · rename_i c2 he
      cases hr
      unfold Cursor.endBuf at he
      rw [hb] at he
      simp only [Option.some.injEq] at he
      subst he
      exact ⟨Or.inl rfl, rfl, hs⟩
    · cases hr
  | copy =>
    simp only [Op.run, Option.some.injEq, Prod.mk.injEq] at hr
    obtain ⟨rfl, rfl⟩ := hr
    exact ⟨Or.inl rfl, hb, hs⟩
  | assign other =>
    simp only [Op.run, Option.some.injEq, Prod.mk.injEq] at hr
    obtain ⟨rfl, rfl⟩ := hr
    simp only [sharing, List.all_cons, List.all_nil, Bool.and_true, Bool.and_eq_true,
      decide_eq_true_eq] at hsh
    exact ⟨Or.inl rfl, by simp only [Cursor.assign]; rw [hsh.1]; exact hb,
      by simp only [Cursor.assign]; rw [hsh.2]; exact hs⟩

/-- A sequence of operations changes the heap by a number of pulls and nothing else. -/
theorem runOps_pulls (b s : Nat) (ops : List Op) : ∀ (c c1 : Cursor) (hh h1 : Heap),
    c.buf = some b → c.is = some s → sharing c ops = true →
    runOps ops c hh = some (c1, h1) →
    ∃ j, h1 = (fun x : Heap => x.pull b s)^[j] hh := by
  induction ops with
  | nil =>
    intro c c1 hh h1 _ _ _ hr
    simp only [runOps, Option.some.injEq, Prod.mk.injEq] at hr
    exact ⟨0, hr.2.symm⟩
  | cons op ops ih =>
    intro c c1 hh h1 hb hs hsh hr
    simp only [runOps] at hr
    have hsh1 : sharing c [op] = true ∧ sharing c ops = true := by
      simp only [sharing, List.all_cons, List.all_nil, Bool.and_true, Bool.and_eq_true] at hsh ⊢
      exact hsh
    cases hrun : op.run c hh with
    | none => rw [hrun] at hr; cases hr
    | some r =>
      obtain ⟨c2, h2⟩ := r
      rw [hrun] at hr
      obtain ⟨hstep, hb2, hs2⟩ := Op.run_step op c c2 hh h2 b s hb hs hsh1.1 hrun
      have hsh2 : sharing c2 ops = true := by
        have := hsh1.2
        simp only [sharing, hb, hs] at this
        simp only [sharing, hb2, hs2]
        exact this
      obtain ⟨j, hj⟩ := ih c2 c1 h2 h1 hb2 hs2 hsh2 hr
      rcases hstep with rfl | rfl
      · exact ⟨j, hj⟩
      · exact ⟨j + 1, by rw [hj, Function.iterate_succ_apply]⟩

/-- A client of the cursor changes the heap by a number of pulls and nothing else. -/
theorem Engine.run_pulls (first last : Cursor) (b s : Nat) (hb : first.buf = some b)
    (hs : first.is = some s) (e : Engine) : ∀ (hh h1 : Heap) (flag : Bool)
    (results : List SubMatch), e.run first last hh = some (flag, results, h1) →
    ∃ j, h1 = (fun x : Heap => x.pull b s)^[j] hh := by
  induction e with
  | done m r =>
    intro hh h1 flag results hr
    simp only [Engine.run, Option.some.injEq, Prod.mk.injEq] at hr
    exact ⟨0, hr.2.2.symm⟩
  | hang =>
    intro hh h1 flag results hr
    simp only [Engine.run] at hr
    cases hr
  | atEnd p k ih =>
    intro hh h1 flag results hr
    simp only [Engine.run] at hr
    exact ih _ hh h1 flag results hr
  | deref p k ih =>
    intro hh h1 flag results hr
    simp only [Engine.run] at hr
    cases hd : (first.at p).deref hh with
    | none => rw [hd] at hr; cases hr
    | some r =>
      obtain ⟨x, h2⟩ := r
      rw [hd] at hr
      obtain ⟨j, hj⟩ := ih x h2 h1 flag results hr
      rcases Cursor.deref_step (first.at p) hh h2 x b s (by rw [Cursor.at_buf]; exact hb)
        (by rw [Cursor.at_is]; exact hs) hd with rfl | rfl
      · exact ⟨j, hj⟩
      · exact ⟨j + 1, by rw [hj, Function.iterate_succ_apply]⟩
  | inc p k ih =>
    intro hh h1 flag results hr
    simp only [Engine.run] at hr
    cases hd : (first.at p).inc hh with
    | none => rw [hd] at hr; cases hr
    | some r =>
      obtain ⟨c2, h2⟩ := r
      rw [hd] at hr
      obtain ⟨j, hj⟩ := ih h2 h1 flag results hr
      rcases (Cursor.inc_step (first.at p) c2 hh h2 b s (by rw [Cursor.at_buf]; exact hb)
        (by rw [Cursor.at_is]; exact hs) hd).1 with rfl | rfl
      · exact ⟨j, hj⟩
      · exact ⟨j + 1, by rw [hj, Function.iterate_succ_apply]⟩
  | dec p k ih =>
    intro hh h1 flag results hr
    simp only [Engine.run] at hr
    exact ih hh h1 flag results hr

/-! ## The buffer is faithful to the stream -/

theorem Heap.pull_faithful (u : List Char) (b s : Nat) (hh : Heap)
    (hK : Faithful u b s hh) : Faithful u b s (hh.pull b s) := by
  obtain ⟨pre, k, hbuf, hu, hk⟩ := hK
  obtain ⟨hc, hrest⟩ := IStream.get_readAll (hh.streams s)
  cases hr : (hh.streams s).readAll with
  | nil =>
    rw [hr] at hc hrest hu
    refine ⟨pre, k + 1, ?_, ?_, fun _ => ?_⟩
    · rw [Heap.pull_bufs_same, hbuf, hc, List.append_assoc, List.replicate_succ']
      rfl
    · rw [Heap.pull_streams_same, hrest]
      exact hu
    · rw [Heap.pull_streams_same, hrest]
      rfl
  | cons x r =>
    rw [hr] at hc hrest hu
    have hk0 : k = 0 := by
      by_contra hne
      have := hk (Nat.pos_of_ne_zero hne)
      rw [hr] at this
      cases this
    subst hk0
    refine ⟨pre ++ [x], 0, ?_, ?_, fun hlt => absurd hlt (Nat.lt_irrefl 0)⟩
    · rw [Heap.pull_bufs_same, hbuf, hc]
      simp
    · rw [Heap.pull_streams_same, hrest]
      simpa using hu

theorem Heap.pulls_faithful (u : List Char) (b s : Nat) (j : Nat) : ∀ (hh : Heap),
    Faithful u b s hh → Faithful u b s ((fun x : Heap => x.pull b s)^[j] hh) := by
  induction j with
  | zero => intro hh hK; exact hK
  | succ j ih =>
    intro hh hK
    rw [Function.iterate_succ_apply]
    exact ih _ (Heap.pull_faithful u b s hh hK)

theorem faithful_at_construction (h : Heap) (s : Nat) :
    Faithful (h.streams s).readAll h.nextBuf s (Cursor.ofStream s h).2 := by
  refine ⟨[], 0, ?_, ?_, fun hlt => absurd hlt (Nat.lt_irrefl 0)⟩
  · simp [Cursor.ofStream]
  · simp [Cursor.ofStream]

/-- A faithful buffer, read index by index. -/
theorem Faithful.buffer_eq (u : List Char) (b s : Nat) (hh : Heap) (hK : Faithful u b s hh) :
    hh.bufs b = (u ++ List.replicate ((hh.bufs b).length - u.length) eofChar).take
      (hh.bufs b).length := by
  obtain ⟨pre, k, hbuf, hu, hk⟩ := hK
  rcases Nat.eq_zero_or_pos k with hk0 | hkpos
  · subst hk0
    simp only [List.replicate_zero, List.append_nil] at hbuf
    rw [hbuf, ← hu]
    have : pre.length - (pre ++ (hh.streams s).readAll).length = 0 := by
      simp
    rw [this]
    simp
  · have hre := hk hkpos
    rw [hre, List.append_nil] at hu
    subst hu
    rw [hbuf]
    simp

/-- C12: buffer faithfulness.  Let `u` be what the stream has to deliver when the cursor
is built (for a good stream, the unread part of its character sequence).  After every
sequence of cursor operations in which only cursors sharing this buffer read the stream,
the buffer is `u`, cut or continued with end-of-file values, at its own length: it agrees
with `u` at every index below both lengths, and every entry at an index from the length
of `u` on is the end-of-file value. -/
theorem buffer_faithful_to_stream (h : Heap) (s : Nat) (ops : List Op) (c1 : Cursor)
    (h1 : Heap)
    (hsh : sharing (Cursor.ofStream s h).1 ops = true)
    (hrun : runOps ops (Cursor.ofStream s h).1 (Cursor.ofStream s h).2 = some (c1, h1)) :
    ((h.streams s).good = true →
      (h.streams s).readAll = (h.streams s).data.drop (h.streams s).gpos) ∧
    h1.bufs h.nextBuf =
      ((h.streams s).readAll ++
        List.replicate ((h1.bufs h.nextBuf).length - (h.streams s).readAll.length) eofChar).take
        (h1.bufs h.nextBuf).length ∧
    (∀ i, i < (h1.bufs h.nextBuf).length → i < (h.streams s).readAll.length →
      (h1.bufs h.nextBuf).get? i = (h.streams s).readAll.get? i) ∧
    (∀ i, (h.streams s).readAll.length ≤ i → i < (h1.bufs h.nextBuf).length →
      (h1.bufs h.nextBuf).get? i = some eofChar) := by
  obtain ⟨j, hj⟩ := runOps_pulls h.nextBuf s ops _ c1 _ h1 rfl rfl hsh hrun
  have hK : Faithful (h.streams s).readAll h.nextBuf s h1 := by
    rw [hj]
    exact Heap.pulls_faithful _ _ _ j _ (faithful_at_construction h s)
  have heq := Faithful.buffer_eq _ _ _ _ hK
  refine ⟨fun hg => IStream.readAll_good _ hg, heq, ?_, ?_⟩
  · intro i hi hiu
    rw [heq]
    simp only [List.get?_eq_getElem?]
    rw [List.getElem?_take_of_lt hi, List.getElem?_append_left hiu]
  · intro i hui hi
    rw [heq]
    simp only [List.get?_eq_getElem?]
    rw [List.getElem?_take_of_lt hi, List.getElem?_append_right hui]
    rw [List.getElem?_replicate]
    simp only [ite_eq_left_iff, not_lt]
    intro hcon
    omega

/-- C12 at a concrete sequence over `abc`: four characters are pulled, the last one past
the end of the stream; the buffer is `abc` and one end-of-file value. -/
theorem buffer_faithful_to_stream_witness :
    sharing (Cursor.ofStream 0 abcHeap).1
      [Op.deref, Op.advance, Op.advance, Op.advance, Op.deref] = true ∧
    runOps [Op.deref, Op.advance, Op.advance, Op.advance, Op.deref]
      (Cursor.ofStream 0 abcHeap).1 (Cursor.ofStream 0 abcHeap).2
      = some ((Cursor.ofStream 0 abcHeap).1.at 3, abcHeapAfter) ∧
    abcHeapAfter.bufs 0 = ['a', 'b', 'c', eofChar] ∧
    (∀ i, (abcHeap.streams 0).readAll.length ≤ i → i < (abcHeapAfter.bufs abcHeap.nextBuf).length →
      (abcHeapAfter.bufs abcHeap.nextBuf).get? i = some eofChar) :=
  ⟨by decide, by rfl, by rfl,
    (buffer_faithful_to_stream abcHeap 0 [Op.deref, Op.advance, Op.advance, Op.advance, Op.deref]
      ((Cursor.ofStream 0 abcHeap).1.at 3) abcHeapAfter (by decide) (by rfl)).2.2.2⟩

/-! ## What the stream has consumed -/

theorem IStream.good_flags (st : IStream) (hg : st.good = true) :
    st.eofbit = false ∧ st.failbit = false ∧ st.badbit = false := by
  simp only [IStream.good, Bool.and_eq_true, Bool.not_eq_true'] at hg
  exact ⟨hg.1.1, hg.1.2, hg.2⟩

/-- A `get()` that leaves the stream good was made on a good stream and delivered a
character of its sequence. -/
theorem IStream.good_of_get_good (st : IStream) (hg : (st.get).2.good = true) :
    st.good = true ∧ ∃ c, st.data.get? st.gpos = some c := by
  cases hst : st.good with
  | false =>
    rw [IStream.get_of_not_good st hst] at hg
    simp [IStream.good] at hg
  | true =>
    cases hc : st.data.get? st.gpos with
    | none =>
      rw [IStream.get_of_good_none st hst hc] at hg
      simp [IStream.good] at hg
    | some c => exact ⟨rfl, c, rfl⟩

theorem Heap.pull_consumed (st0 : IStream) (b s : Nat) (hh : Heap)
    (hC : Consumed st0 b s hh) : Consumed st0 b s (hh.pull b s) := by
  intro hg
  rw [Heap.pull_streams_same] at hg
  obtain ⟨hgood, c, hc⟩ := IStream.good_of_get_good _ hg
  obtain ⟨hdata, hgpos, hbuf⟩ := hC hgood
  have hget := IStream.get_of_good_some _ c hgood hc
  rw [Heap.pull_streams_same, Heap.pull_bufs_same, hget]
  simp only [List.length_append, List.length_singleton]
  refine ⟨hdata, by omega, ?_⟩
  rw [List.get?_eq_getElem?, hdata, hgpos] at hc
  have hidx : (st0.data.drop st0.gpos)[(hh.bufs b).length]? = some c := by
    rw [List.getElem?_drop]
    exact hc
  rw [List.take_succ, hidx, ← hbuf]
  rfl

theorem Heap.pulls_consumed (st0 : IStream) (b s : Nat) (j : Nat) : ∀ (hh : Heap),
    Consumed st0 b s hh → Consumed st0 b s ((fun x : Heap => x.pull b s)^[j] hh) := by
  induction j with
  | zero => intro hh hC; exact hC
  | succ j ih =>
    intro hh hC
    rw [Function.iterate_succ_apply]
    exact ih _ (Heap.pull_consumed st0 b s hh hC)

theorem consumed_at_construction (h : Heap) (s : Nat) :
    Consumed (h.streams s) h.nextBuf s (Cursor.ofStream s h).2 := by
  intro _
  simp [Cursor.ofStream]

/-- Putting back the character just read from a good stream steps back by one. -/
theorem IStream.putback_last (st : IStream) (c : Char) (hg : st.good = true)
    (hpos : 0 < st.gpos) (hc : st.data.get? (st.gpos - 1) = some c) :
    st.putback c = { st with gpos := st.gpos - 1 } := by
  obtain ⟨he, hf, hb⟩ := IStream.good_flags st hg
  obtain ⟨d, g, e, f, bb⟩ := st
  simp only at he hf hb hpos hc
  subst he hf hb
  simp only [IStream.putback, IStream.good, Bool.not_false, Bool.and_self, if_true, hpos,
    hc, and_self]

/-- C15: `extract` rewinds to the last buffered character and puts it back on every call,
whatever the search returned.  When the search left `n ≥ 1` characters in the buffer and
the stream is still good (every pull delivered a character, none is an end-of-file
value), and the walk over the groups is defined, the stream has afterwards consumed
exactly `n - 1` characters since the call began; so after a failed match that buffered
more than one character it is not at its original position. -/
theorem putback_on_every_call (regex : Cursor → Cursor → Engine) (args : Argpack) (s : Nat)
    (h : Heap) (flag : Bool) (results : List SubMatch) (h1 : Heap)
    (hrun : (regex (Cursor.ofStream s h).1 Cursor.sentinel).run (Cursor.ofStream s h).1
      Cursor.sentinel (Cursor.ofStream s h).2 = some (flag, results, h1))
    (hne : 0 < (h1.bufs h.nextBuf).length) (hrep : (h1.bufs h.nextBuf).length ≤ sizeMod)
    (hN : args.size < results.length)
    (hwf : ∀ k m, 1 ≤ k → k ≤ args.size → results.get? k = some m →
      m.Spans (Cursor.ofStream s h).1 h1)
    (hgood : (h1.streams s).good = true) :
    ∃ args1 h2, extract regex args s h = some (flag, args1, h2) ∧
      h2.bufs h.nextBuf = h1.bufs h.nextBuf ∧
      (h1.streams s).gpos = (h.streams s).gpos + (h1.bufs h.nextBuf).length ∧
      (h2.streams s).gpos = (h.streams s).gpos + ((h1.bufs h.nextBuf).length - 1) ∧
      (h2.streams s).data = (h.streams s).data ∧ (h2.streams s).good = true ∧
      (1 < (h1.bufs h.nextBuf).length → (h2.streams s).gpos ≠ (h.streams s).gpos) := by
  obtain ⟨args1, -, hex, -, -⟩ :=
    extract_after_search regex args s h flag results h1 hrun hne hrep hN hwf
  obtain ⟨j, hj⟩ := Engine.run_pulls (Cursor.ofStream s h).1 Cursor.sentinel h.nextBuf s rfl rfl
    _ _ h1 flag results hrun
  have hC : Consumed (h.streams s) h.nextBuf s h1 := by
    rw [hj]
    exact Heap.pulls_consumed _ _ _ j _ (consumed_at_construction h s)
  obtain ⟨hdata, hgpos, hbuf⟩ := hC hgood
  have hlast : (h1.streams s).data.get? ((h1.streams s).gpos - 1)
      = some ((h1.bufs h.nextBuf)[(h1.bufs h.nextBuf).length - 1]) := by
    have hlt : (h1.bufs h.nextBuf).length - 1 < (h1.bufs h.nextBuf).length := by omega
    have h1' : (h1.bufs h.nextBuf)[(h1.bufs h.nextBuf).length - 1]?
        = some ((h1.bufs h.nextBuf)[(h1.bufs h.nextBuf).length - 1]) :=
      List.getElem?_eq_getElem hlt
    have helem : (h1.bufs h.nextBuf)[(h1.bufs h.nextBuf).length - 1]?
        = (((h.streams s).data.drop (h.streams s).gpos).take
            (h1.bufs h.nextBuf).length)[(h1.bufs h.nextBuf).length - 1]? := by
      rw [← hbuf]
    rw [← h1', helem, List.getElem?_take_of_lt hlt, List.getElem?_drop, List.get?_eq_getElem?,
      hdata, hgpos]
    congr 1
    omega
  have hput := IStream.putback_last (h1.streams s)
    ((h1.bufs h.nextBuf)[(h1.bufs h.nextBuf).length - 1]) hgood (by omega) hlast
  refine ⟨args1, _, hex, ?_, hgpos, ?_, ?_, ?_, ?_⟩
  · simp [Heap.setStream]
  · simp only [Heap.setStream, Function.update_same, hput]
    omega
  · simp only [Heap.setStream, Function.update_same, hput]
    exact hdata
  · simp only [Heap.setStream, Function.update_same, hput]
    exact hgood
  · intro hlt
    simp only [Heap.setStream, Function.update_same, hput]
    omega

/-- C15 at a concrete call: the pattern `(a)(b)(c)` fails on the stream `abx` after
buffering three characters; the results keep three unmatched entries; two text variables
are bound.  The stream ends two characters past its start. -/
theorem putback_on_every_call_witness :
    ((patABC.searchPadded 100 (Cursor.ofStream 0 abxHeap).1 Cursor.sentinel).run
      (Cursor.ofStream 0 abxHeap).1 Cursor.sentinel (Cursor.ofStream 0 abxHeap).2
      = some (false, List.replicate 3 unmatchedSub, abxHeapAfter)) ∧
    (abxHeapAfter.streams 0).good = true ∧
    ∃ args1 h2, extract (patABC.searchPadded 100) twoTexts 0 abxHeap = some (false, args1, h2) ∧
      h2.bufs abxHeap.nextBuf = abxHeapAfter.bufs abxHeap.nextBuf ∧
      (abxHeapAfter.streams 0).gpos
        = (abxHeap.streams 0).gpos + (abxHeapAfter.bufs abxHeap.nextBuf).length ∧
      (h2.streams 0).gpos
        = (abxHeap.streams 0).gpos + ((abxHeapAfter.bufs abxHeap.nextBuf).length - 1) ∧
      (h2.streams 0).data = (abxHeap.streams 0).data ∧ (h2.streams 0).good = true ∧
      (1 < (abxHeapAfter.bufs abxHeap.nextBuf).length →
        (h2.streams 0).gpos ≠ (abxHeap.streams 0).gpos) :=
  ⟨by rfl, by decide,
    putback_on_every_call (patABC.searchPadded 100) twoTexts 0 abxHeap false
      (List.replicate 3 unmatchedSub) abxHeapAfter (by rfl) (by decide) (by decide) (by decide)
      (by
        intro k m hk1 hk2 hm
        have hk : k = 1 ∨ k = 2 := by
          have : k ≤ 2 := hk2
          omega
        have hmm : m = unmatchedSub := by
          rcases hk with rfl | rfl
          · have h2 : (List.replicate 3 unmatchedSub).get? 1 = some unmatchedSub := rfl
            rw [h2] at hm
            exact (Option.some.inj hm).symm
          · have h2 : (List.replicate 3 unmatchedSub).get? 2 = some unmatchedSub := rfl
            rw [h2] at hm
            exact (Option.some.inj hm).symm
        subst hmm
        exact Or.inl ⟨rfl, rfl⟩)
      (by decide)⟩

/-! ## The flag, the group count and the empty buffer -/

/-- The flag `extract` returns is the one the search returned. -/
theorem extract_flag (regex : Cursor → Cursor → Engine) (args : Argpack) (s : Nat)
    (h : Heap) (flag : Bool) (results : List SubMatch) (h1 : Heap)
    (hrun : (regex (Cursor.ofStream s h).1 Cursor.sentinel).run (Cursor.ofStream s h).1
      Cursor.sentinel (Cursor.ofStream s h).2 = some (flag, results, h1))
    (r : Bool × Argpack × Heap) (hr : extract regex args s h = some r) : r.1 = flag := by
  unfold extract at hr
  simp only [hrun] at hr
  split at hr
  · cases hr
  · split at hr
    · cases hr
    · split at hr
      · cases hr
      · cases hr
        rfl

/-- C11: the boolean `extract` returns is the outcome of the search alone.  Whenever
`extract` returns, its flag is the flag of the search; and after a search whose groups
`1..N` lie inside a non-empty buffer `extract` does return that flag, for variables of
any type and whatever the text of the groups: a text that does not convert leaves a value
in the variable and raises nothing.  For the pattern `(\w+)` on the stream `abc`, bound
to an integer variable, `extract` returns true and the variable holds 0. -/
theorem extract_returns_match_flag (regex : Cursor → Cursor → Engine) (args : Argpack)
    (s : Nat) (h : Heap) (flag : Bool) (results : List SubMatch) (h1 : Heap)
    (hrun : (regex (Cursor.ofStream s h).1 Cursor.sentinel).run (Cursor.ofStream s h).1
      Cursor.sentinel (Cursor.ofStream s h).2 = some (flag, results, h1)) :
    (∀ r, extract regex args s h = some r → r.1 = flag) ∧
    (0 < (h1.bufs h.nextBuf).length → (h1.bufs h.nextBuf).length ≤ sizeMod →
      args.size < results.length →
      (∀ k m, 1 ≤ k → k ≤ args.size → results.get? k = some m →
        m.Spans (Cursor.ofStream s h).1 h1) →
      ∃ args1 h2, extract regex args s h = some (flag, args1, h2)) ∧
    observe 0 (extract (patWord.search 100) oneInt 0 abcHeap)
      = some (true, [Binding.int 0], []) := by
  refine ⟨fun r hr => extract_flag regex args s h flag results h1 hrun r hr, ?_, by rfl⟩
  intro hne hrep hN hwf
  obtain ⟨args1, -, hex, -, -⟩ :=
    extract_after_search regex args s h flag results h1 hrun hne hrep hN hwf
  exact ⟨args1, _, hex⟩

/-- C11 at a concrete call: `(\w+)` on `abc` with an integer variable. -/
theorem extract_returns_match_flag_witness :
    ((patWord.search 100 (Cursor.ofStream 0 abcHeap).1 Cursor.sentinel).run
      (Cursor.ofStream 0 abcHeap).1 Cursor.sentinel (Cursor.ofStream 0 abcHeap).2
      = some (true, abcResults, abcHeapAfter)) ∧
    (∀ r, extract (patWord.search 100) oneInt 0 abcHeap = some r → r.1 = true) ∧
    (Binding.int 7).read ['a', 'b', 'c'] = Binding.int 0 :=
  ⟨by rfl,
    (extract_returns_match_flag (patWord.search 100) oneInt 0 abcHeap true abcResults
      abcHeapAfter (by rfl)).1,
    by rfl⟩

/-- The walk from index `i` looks at the entries `i .. i + N - 1` only. -/
theorem Argpack.extract_congr (results results1 : List SubMatch) (args : Argpack) :
    ∀ (i : Nat) (hh : Heap),
    (∀ k, i ≤ k → k < i + args.size → results1.get? k = results.get? k) →
    args.extract results1 i hh = args.extract results i hh := by
  induction args with
  | last a =>
    intro i hh hag
    have hg := hag i (Nat.le_refl i) (by rw [Argpack.size_last]; omega)
    simp only [Argpack.extract, hg]
  | cons a n ih =>
    intro i hh hag
    have hg := hag i (Nat.le_refl i) (by rw [Argpack.size_cons]; omega)
    simp only [Argpack.extract, hg]
    cases results.get? i with
    | none => rfl
    | some m =>
      simp only
      cases rangeString sizeMod m.first m.second hh with
      | none => rfl
      | some r =>
        simp only
        rw [ih (i + 1) r.2 (fun k hk1 hk2 => hag k (by omega) (by rw [Argpack.size_cons]; omega))]

/-- A walk that would pass the end of the results has no defined outcome. -/
theorem Argpack.extract_out_of_range (results : List SubMatch) (args : Argpack) :
    ∀ (i : Nat) (hh : Heap), results.length < i + args.size →
    args.extract results i hh = none := by
  induction args with
  | last a =>
    intro i hh hlen
    rw [Argpack.size_last] at hlen
    have hg : results.get? i = none := by
      rw [List.get?_eq_getElem?, List.getElem?_eq_none_iff]
      omega
    simp only [Argpack.extract, hg]
  | cons a n ih =>
    intro i hh hlen
    rw [Argpack.size_cons] at hlen
    simp only [Argpack.extract]
    cases results.get? i with
    | none => rfl
    | some m =>
      simp only
      cases rangeString sizeMod m.first m.second hh with
      | none => rfl
      | some r =>
        simp only
        rw [ih (i + 1) r.2 (by omega)]

/-- C14: binding and group count.  After a successful search whose results hold `G`
groups behind the whole match, an extractor with `N ≤ G` variables (the groups `1..N`
lying inside the non-empty buffer) returns: every group it dereferences exists, the walk
depends on the groups `1..N` only, so the groups `N+1..G` and the whole match are
ignored.  Nothing compares `N` with `G`: with more than `G` variables the same walk
leaves the results and has no defined outcome. -/
theorem group_access_in_bounds (regex : Cursor → Cursor → Engine) (args : Argpack) (s : Nat)
    (h : Heap) (results : List SubMatch) (h1 : Heap) (G : Nat)
    (hrun : (regex (Cursor.ofStream s h).1 Cursor.sentinel).run (Cursor.ofStream s h).1
      Cursor.sentinel (Cursor.ofStream s h).2 = some (true, results, h1))
    (hG : results.length = G + 1) (hNG : args.size ≤ G)
    (hne : 0 < (h1.bufs h.nextBuf).length) (hrep : (h1.bufs h.nextBuf).length ≤ sizeMod)
    (hwf : ∀ k m, 1 ≤ k → k ≤ args.size → results.get? k = some m →
      m.Spans (Cursor.ofStream s h).1 h1) :
    (∃ args1 h2, extract regex args s h = some (true, args1, h2) ∧
      args.extract results 1 h1 = some (args1, h1)) ∧
    (∀ k, 1 ≤ k → k ≤ args.size → ∃ m, results.get? k = some m) ∧
    (∀ results1 : List SubMatch,
      (∀ k, 1 ≤ k → k ≤ args.size → results1.get? k = results.get? k) →
      args.extract results1 1 h1 = args.extract results 1 h1) ∧
    (∀ (more : Argpack) (hh : Heap), G < more.size → more.extract results 1 hh = none) := by
  obtain ⟨args1, hwalk, hex, -, -⟩ :=
    extract_after_search regex args s h true results h1 hrun hne hrep (by omega) hwf
  refine ⟨⟨args1, _, hex, hwalk⟩, ?_, ?_, ?_⟩
  · intro k _ hk2
    have hk : k < results.length := by omega
    exact ⟨results[k], by simp [List.getElem?_eq_getElem hk]⟩
  · intro results1 hag
    exact Argpack.extract_congr results results1 args 1 h1
      (fun k hk1 hk2 => hag k hk1 (by omega))
  · intro more hh hmore
    exact Argpack.extract_out_of_range results more 1 hh (by omega)

/-- C14 at a concrete call: `(\d+)\s(\w+)` on `42 foo\n`, two groups and two variables. -/
theorem group_access_in_bounds_witness :
    fooResults.length = 2 + 1 ∧ fooArgs.size ≤ 2 ∧
    (∃ args1 h2, extract (patTwoGroups.search 100) fooArgs 0 fooHeap = some (true, args1, h2) ∧
      fooArgs.extract fooResults 1 fooHeapAfter = some (args1, fooHeapAfter)) ∧
    (∀ (more : Argpack) (hh : Heap), 2 < more.size → more.extract fooResults 1 hh = none) :=
  have key := group_access_in_bounds (patTwoGroups.search 100) fooArgs 0 fooHeap fooResults
    fooHeapAfter 2 (by rfl) (by decide) (by decide) (by decide) (by decide) (by
      intro k m hk1 hk2 hm
      have hk : k = 1 ∨ k = 2 := by
        have : k ≤ 2 := hk2
        omega
      rcases hk with rfl | rfl
      · have : m = { first := fooCursor.at 0, second := fooCursor.at 2, matched := true } := by
          have h2 : fooResults.get? 1 = some
              { first := fooCursor.at 0, second := fooCursor.at 2, matched := true } := rfl
          rw [h2] at hm
          exact (Option.some.inj hm).symm
        subst this
        exact Or.inr ⟨0, rfl, rfl, rfl, by decide, by decide⟩
      · have : m = { first := fooCursor.at 3, second := fooCursor.at 6, matched := true } := by
          have h2 : fooResults.get? 2 = some
              { first := fooCursor.at 3, second := fooCursor.at 6, matched := true } := rfl
          rw [h2] at hm
          exact (Option.some.inj hm).symm
        subst this
        exact Or.inr ⟨0, rfl, rfl, rfl, by decide, by decide⟩)
  ⟨by decide, by decide, key.1, key.2.2.2⟩

theorem Cursor.endBuf_empty (c : Cursor) (h : Heap) (b : Nat) (hb : c.buf = some b)
    (hn : (h.bufs b).length = 0) : c.endBuf h = some (c.at (sizeMod - 1)) := by
  obtain ⟨cb, cp, ci⟩ := c
  simp only at hb
  subst hb
  have hm : ((h.bufs b).length + sizeMod - 1) % sizeMod = sizeMod - 1 := by
    rw [hn, sizeMod_eq]
  simp only [Cursor.endBuf, Cursor.at, hm]

/-- Dereferencing position `2 ^ 64 - 1` over an empty buffer pulls one character and
then reads outside the buffer. -/
theorem Cursor.deref_after_empty_rewind (c : Cursor) (h : Heap) (b s : Nat)
    (hb : c.buf = some b) (hs : c.is = some s) (hn : (h.bufs b).length = 0) :
    (c.at (sizeMod - 1)).fill h = some (h.pull b s) ∧
    ((h.pull b s).bufs b).length = 1 ∧
    ((h.pull b s).bufs b).get? (sizeMod - 1) = none ∧
    (c.at (sizeMod - 1)).deref h = none := by
  have hlen : ((h.pull b s).bufs b).length = 1 := by
    rw [Heap.pull_bufs_same]; simp [hn]
  have hidx : ((h.pull b s).bufs b).get? (sizeMod - 1) = none := by
    rw [List.get?_eq_getElem?, List.getElem?_eq_none_iff, hlen, sizeMod_eq]
    omega
  have hfill : (c.at (sizeMod - 1)).fill h = some (h.pull b s) := by
    obtain ⟨cb, cp, ci⟩ := c
    simp only at hb hs
    subst hb hs
    have hle : (h.bufs b).length ≤ sizeMod - 1 := by rw [hn]; exact Nat.zero_le _
    simp only [Cursor.fill, Cursor.at, hle, if_true]
  refine ⟨hfill, hlen, hidx, ?_⟩
  obtain ⟨cb, cp, ci⟩ := c
  simp only at hb hs
  subst hb hs
  have hfill2 : Cursor.fill { buf := some b, pos := sizeMod - 1, is := some s } h
      = some (h.pull b s) := hfill
  simp only [Cursor.deref, Cursor.at, hfill2, hidx]

/-- C16: the rewind over an empty buffer.  When the buffer is still empty as `extract`
reaches the putback, rewind-to-last computes `0 - 1` in the unsigned position type and
gives position `2 ^ 64 - 1`; the dereference that follows pulls one character and then
indexes the one-character buffer outside its bounds, so the call has no defined outcome.
The dereference for the putback is in bounds exactly when the buffer is non-empty at
that point. -/
theorem empty_buffer_rewind_out_of_bounds (regex : Cursor → Cursor → Engine) (args : Argpack)
    (s : Nat) (h : Heap) (flag : Bool) (results : List SubMatch) (h1 : Heap)
    (args1 : Argpack) (h2 : Heap)
    (hrun : (regex (Cursor.ofStream s h).1 Cursor.sentinel).run (Cursor.ofStream s h).1
      Cursor.sentinel (Cursor.ofStream s h).2 = some (flag, results, h1))
    (hwalk : args.extract results 1 h1 = some (args1, h2))
    (hrep : (h2.bufs h.nextBuf).length ≤ sizeMod) :
    ((extract regex args s h).isSome = true ↔ 0 < (h2.bufs h.nextBuf).length) ∧
    sizeMod - 1 = 2 ^ 64 - 1 ∧
    ((h2.bufs h.nextBuf).length = 0 →
      (Cursor.ofStream s h).1.endBuf h2 = some ((Cursor.ofStream s h).1.at (sizeMod - 1)) ∧
      ((Cursor.ofStream s h).1.at (sizeMod - 1)).fill h2 = some (h2.pull h.nextBuf s) ∧
      ((h2.pull h.nextBuf s).bufs h.nextBuf).length = 1 ∧
      ((h2.pull h.nextBuf s).bufs h.nextBuf).get? (sizeMod - 1) = none ∧
      ((Cursor.ofStream s h).1.at (sizeMod - 1)).deref h2 = none ∧
      extract regex args s h = none) := by
  have hb0 : (Cursor.ofStream s h).1.buf = some h.nextBuf := rfl
  have hs0 : (Cursor.ofStream s h).1.is = some s := rfl
  have hempty : (h2.bufs h.nextBuf).length = 0 →
      (Cursor.ofStream s h).1.endBuf h2 = some ((Cursor.ofStream s h).1.at (sizeMod - 1)) ∧
      ((Cursor.ofStream s h).1.at (sizeMod - 1)).fill h2 = some (h2.pull h.nextBuf s) ∧
      ((h2.pull h.nextBuf s).bufs h.nextBuf).length = 1 ∧
      ((h2.pull h.nextBuf s).bufs h.nextBuf).get? (sizeMod - 1) = none ∧
      ((Cursor.ofStream s h).1.at (sizeMod - 1)).deref h2 = none ∧
      extract regex args s h = none := by
    intro hn
    have hend := Cursor.endBuf_empty (Cursor.ofStream s h).1 h2 h.nextBuf hb0 hn
    obtain ⟨hfill, hlen, hidx, hd⟩ :=
      Cursor.deref_after_empty_rewind (Cursor.ofStream s h).1 h2 h.nextBuf s hb0 hs0 hn
    refine ⟨hend, hfill, hlen, hidx, hd, ?_⟩
    unfold extract
    simp only [hrun, hwalk, hend, hd]
  refine ⟨?_, by decide, hempty⟩
  constructor
  · intro hsome
    by_contra hcon
    have hn : (h2.bufs h.nextBuf).length = 0 := by omega
    rw [(hempty hn).2.2.2.2.2] at hsome
    cases hsome
  · intro hpos
    have hend := Cursor.endBuf_nonempty (Cursor.ofStream s h).1 h2 h.nextBuf hb0 hpos hrep
    have hlt : (((Cursor.ofStream s h).1).at ((h2.bufs h.nextBuf).length - 1)).pos
        < (h2.bufs h.nextBuf).length := by rw [Cursor.at_pos]; omega
    have hd := Cursor.deref_filled _ h2 h.nextBuf (by rw [Cursor.at_buf]; exact hb0) hlt
    unfold extract
    simp only [hrun, hwalk, hend, hd]
    rfl

/-- C16 at a concrete call: the pattern `()` matches the empty string on `abc` without
touching the cursor; the buffer is empty at the putback and `extract` has no defined
outcome. -/
theorem empty_buffer_rewind_out_of_bounds_witness :
    ((patEmptyGroup.search 100 (Cursor.ofStream 0 abcHeap).1 Cursor.sentinel).run
      (Cursor.ofStream 0 abcHeap).1 Cursor.sentinel (Cursor.ofStream 0 abcHeap).2
      = some (true, emptyResults, (Cursor.ofStream 0 abcHeap).2)) ∧
    oneText.extract emptyResults 1 (Cursor.ofStream 0 abcHeap).2
      = some (oneText, (Cursor.ofStream 0 abcHeap).2) ∧
    ((Cursor.ofStream 0 abcHeap).2.bufs abcHeap.nextBuf).length = 0 ∧
    extract (patEmptyGroup.search 100) oneText 0 abcHeap = none :=
  ⟨by rfl, by rfl, by decide,
    ((empty_buffer_rewind_out_of_bounds (patEmptyGroup.search 100) oneText 0 abcHeap true
      emptyResults (Cursor.ofStream 0 abcHeap).2 oneText (Cursor.ofStream 0 abcHeap).2
      (by rfl) (by rfl) (by decide)).2.2 (by decide)).2.2.2.2.2⟩

end ByRegex
